import Mathlib

set_option maxHeartbeats 1000000

namespace Algol

/-!
Verification development for the Algol instruction-cache core.

Part 1 embeds `Core/cache_lru.py` (`CacheLRU`), the pure combinational
pseudo-LRU module.  The history word packs, for every pair of ways
`(i, j)` with `i < j`, one bit meaning "way i is older than way j"; the
module expands the word to a full `W x W` matrix, reads the eviction mask
as the row-AND, applies the one-hot access mask, and compresses the upper
triangle back into the updated history word.
-/

/-- Value of a little-endian bit list: bit `k` of the result is entry `k`
of the list.  This models a myhdl `modbv` that starts at zero and has each
bit position assigned at most once, as in the `tmp0` / `tmp1` / `temp`
vectors of `CacheLRU.step_1`. -/
def natOfBits : List Bool → Nat
  | [] => 0
  | b :: bs => (if b then 1 else 0) + 2 * natOfBits bs

/-- Triangular width `Σ_{t<W} (W - t - 1)`, the number of history bits;
equals the source's `TAG_LRU_WIDTH = (W * (W - 1)) >> 1`. -/
def triWidth : Nat → Nat
  | 0 => 0
  | W + 1 => W + triWidth W

/-- Bit position of pair `(i, j)` (for `i < j`) inside the packed history
word.  The source loops keep a running `offset` that accumulates the row
lengths `W - i - 1`, and store row `i`'s pair `(i, j)` at
`offset + j - i - 1`; peeling one row at a time gives this recursion. -/
def pairIndex (W i j : Nat) : Nat :=
  match i with
  | 0 => j - 1
  | i' + 1 => (W - 1) + pairIndex (W - 1) i' (j - 1)

/-- Step 1 of `CacheLRU.step_1`: the expanded matrix.  The diagonal is
statically one; for `i < j` entry `(i, j)` is history bit
`current[offset + j - i - 1]`; for `i > j` it is the complement of the
(already filled) mirrored entry `(j, i)`. -/
def expandM (W current : Nat) (i j : Nat) : Bool :=
  if i = j then true
  else if i < j then current.testBit (pairIndex W i j)
  else !(current.testBit (pairIndex W j i))

/-- Row-AND of matrix row `i` over columns `0 .. W-1`, as the source's
`value = value and expand[i][j]` loop. -/
def rowAnd (W : Nat) (M : Nat → Nat → Bool) (i : Nat) : Bool :=
  (List.range W).foldl (fun v j => v && M i j) true

/-- Step 2 of `CacheLRU.step_1`: `lru_pre`, the eviction mask before the
access — bit `i` is the AND of row `i` of the expanded matrix. -/
def lru_pre (W current : Nat) : Nat :=
  natOfBits ((List.range W).map (rowAnd W (expandM W current)))

/-- One iteration of the step-3 access loop, for a way `i` whose access
bit is set: the entries of row `i` (columns `j ≠ i`, `j < W`) become 0 and
the entries of column `i` (rows `j ≠ i`, `j < W`) become 1.  The two inner
loops touch disjoint entries, so their combined effect is this pointwise
function. -/
def accessStep (W i : Nat) (M : Nat → Nat → Bool) : Nat → Nat → Bool :=
  fun r c =>
    if r = i ∧ c ≠ i ∧ c < W then false
    else if c = i ∧ r ≠ i ∧ r < W then true
    else M r c

/-- Step 3 of `CacheLRU.step_1`: iterate over all ways `i < W` in order,
applying the row/column update whenever `access[i]` is set. -/
def applyAccess (W access : Nat) (M : Nat → Nat → Bool) : Nat → Nat → Bool :=
  (List.range W).foldl (fun N i => if access.testBit i then accessStep W i N else N) M

/-- The upper-triangle bits of a matrix, row-major: row `i` contributes
`M i (i+1), …, M i (W-1)`, exactly the order in which step 4 of the
source writes `tmp1[offset + j - i - 1] = expand[i][j]`.  Peeling row 0
leaves the same computation on the index-shifted matrix. -/
def pairsBits (W : Nat) (M : Nat → Nat → Bool) : List Bool :=
  match W with
  | 0 => []
  | W' + 1 =>
      (List.range W').map (fun d => M 0 (d + 1)) ++
        pairsBits W' (fun i j => M (i + 1) (j + 1))

/-- Step 4 of `CacheLRU.step_1`: pack the upper triangle of a matrix back
into a history word. -/
def compress (W : Nat) (M : Nat → Nat → Bool) : Nat :=
  natOfBits (pairsBits W M)

/-- The `update` output of `CacheLRU`: compress of the matrix after the
access has been applied. -/
def updateHistory (W current access : Nat) : Nat :=
  compress W (applyAccess W access (expandM W current))

/-- Step 5 of `CacheLRU.step_1`: `lru_post`, the row-AND mask of the
post-access matrix. -/
def lru_post (W current access : Nat) : Nat :=
  natOfBits ((List.range W).map (rowAnd W (applyAccess W access (expandM W current))))

/-!
The `lru_post is None` branch of `CacheLRU` duplicates steps 1–4 in a
second, textually separate `step_1` block.  The following definitions
(`…B`) embed that second block on its own, so that the equivalence of the
two generated code paths is a statement about two independently translated
programs.
-/

/-- Step 1 of the `lru_post is None` branch of `CacheLRU`. -/
def expandMB (W current : Nat) (i j : Nat) : Bool :=
  if i = j then true
  else if i < j then current.testBit (pairIndex W i j)
  else !(current.testBit (pairIndex W j i))

/-- Row-AND loop of the `lru_post is None` branch. -/
def rowAndB (W : Nat) (M : Nat → Nat → Bool) (i : Nat) : Bool :=
  (List.range W).foldl (fun v j => v && M i j) true

/-- `lru_pre` as computed by the `lru_post is None` branch. -/
def lru_preB (W current : Nat) : Nat :=
  natOfBits ((List.range W).map (rowAndB W (expandMB W current)))

/-- Access loop body of the `lru_post is None` branch. -/
def accessStepB (W i : Nat) (M : Nat → Nat → Bool) : Nat → Nat → Bool :=
  fun r c =>
    if r = i ∧ c ≠ i ∧ c < W then false
    else if c = i ∧ r ≠ i ∧ r < W then true
    else M r c

/-- Access application of the `lru_post is None` branch. -/
def applyAccessB (W access : Nat) (M : Nat → Nat → Bool) : Nat → Nat → Bool :=
  (List.range W).foldl (fun N i => if access.testBit i then accessStepB W i N else N) M

/-- Upper-triangle packing of the `lru_post is None` branch. -/
def pairsBitsB (W : Nat) (M : Nat → Nat → Bool) : List Bool :=
  match W with
  | 0 => []
  | W' + 1 =>
      (List.range W').map (fun d => M 0 (d + 1)) ++
        pairsBitsB W' (fun i j => M (i + 1) (j + 1))

/-- `update` as computed by the `lru_post is None` branch. -/
def updateHistoryB (W current access : Nat) : Nat :=
  natOfBits (pairsBitsB W (applyAccessB W access (expandMB W current)))

/-! ### Basic facts about the bit-vector encodings -/

theorem natOfBits_testBit (l : List Bool) (k : Nat) :
    (natOfBits l).testBit k = l.getD k false := by
  induction l generalizing k with
  | nil => simp [natOfBits]
  | cons b bs ih =>
    cases k with
    | zero =>
      cases b <;>
        simp [natOfBits, Nat.testBit_zero, Nat.add_mul_mod_self_left]
    | succ k =>
      rw [natOfBits, Nat.testBit_add_one, Nat.add_mul_div_left _ _ (by omega : 0 < 2)]
      cases b <;> simpa using ih k

theorem natOfBits_lt (l : List Bool) : natOfBits l < 2 ^ l.length := by
  induction l with
  | nil => decide
  | cons b bs ih =>
    have hb : (if b then 1 else 0) ≤ 1 := by cases b <;> simp
    simp only [natOfBits, List.length_cons, pow_succ]
    omega

theorem natOfBits_nil : natOfBits [] = 0 := rfl

theorem natOfBits_eq_two_pow (l : List Bool) (m : Nat)
    (hchar : ∀ k, l.getD k false = decide (k = m)) : natOfBits l = 2 ^ m := by
  apply Nat.eq_of_testBit_eq
  intro k
  rw [natOfBits_testBit, hchar, Nat.testBit_two_pow]
  exact decide_eq_decide.mpr ⟨fun h => h.symm, fun h => h.symm⟩

theorem two_mul_triWidth (W : Nat) : 2 * triWidth W = W * (W - 1) := by
  induction W with
  | zero => rfl
  | succ W ih =>
    cases W with
    | zero => rfl
    | succ V =>
      rw [triWidth, Nat.mul_add, ih]
      simp only [Nat.succ_sub_one]
      ring

theorem triWidth_eq (W : Nat) : triWidth W = W * (W - 1) / 2 := by
  have h := two_mul_triWidth W
  generalize W * (W - 1) = a at h ⊢
  omega

theorem pairsBits_length (W : Nat) (M : Nat → Nat → Bool) :
    (pairsBits W M).length = triWidth W := by
  induction W generalizing M with
  | zero => rfl
  | succ W ih => simp [pairsBits, triWidth, ih]

theorem pairIndex_zero (W j : Nat) : pairIndex W 0 j = j - 1 := rfl

theorem pairIndex_succ (W i j : Nat) :
    pairIndex W (i + 1) j = (W - 1) + pairIndex (W - 1) i (j - 1) := rfl

theorem pairsBits_getD (i : Nat) : ∀ (W : Nat) (M : Nat → Nat → Bool) (j : Nat),
    i < j → j < W → (pairsBits W M).getD (pairIndex W i j) false = M i j := by
  induction i with
  | zero =>
    intro W M j hij hjW
    cases W with
    | zero => omega
    | succ V =>
      rw [pairsBits, pairIndex_zero, List.getD_eq_getElem?_getD,
        List.getElem?_append_left (by simp; omega)]
      rw [List.getElem?_map, List.getElem?_range (by omega : j - 1 < V)]
      show M 0 (j - 1 + 1) = M 0 j
      congr 1
      omega
  | succ i ih =>
    intro W M j hij hjW
    cases W with
    | zero => omega
    | succ V =>
      cases j with
      | zero => omega
      | succ j =>
        rw [pairsBits, pairIndex_succ, List.getD_eq_getElem?_getD,
          List.getElem?_append_right (by simp)]
        simp only [List.length_map, List.length_range, Nat.succ_sub_one,
          Nat.add_sub_cancel_left]
        rw [← List.getD_eq_getElem?_getD]
        exact ih V _ j (by omega) (by omega)

theorem compress_testBit (W : Nat) (M : Nat → Nat → Bool) (i j : Nat)
    (hij : i < j) (hjW : j < W) :
    (compress W M).testBit (pairIndex W i j) = M i j := by
  rw [compress, natOfBits_testBit, pairsBits_getD i W M j hij hjW]

theorem compress_lt (W : Nat) (M : Nat → Nat → Bool) :
    compress W M < 2 ^ triWidth W := by
  have h := natOfBits_lt (pairsBits W M)
  rwa [pairsBits_length] at h

/-! ### The expanded matrix and the access update -/

/-- The shape invariant the source establishes by construction: diagonal
ones, and the lower half the inverted mirror of the upper half. -/
def MatOk (W : Nat) (M : Nat → Nat → Bool) : Prop :=
  (∀ i, M i i = true) ∧ ∀ i j, i < W → j < W → i ≠ j → M i j = !M j i

theorem expandM_ok (W h : Nat) : MatOk W (expandM W h) := by
  constructor
  · intro i
    simp [expandM]
  · intro i j _ _ hij
    rcases Nat.lt_trichotomy i j with hlt | heq | hgt
    · rw [expandM, if_neg hij, if_pos hlt, expandM, if_neg (Ne.symm hij),
        if_neg (by omega)]
      simp
    · exact absurd heq hij
    · rw [expandM, if_neg hij, if_neg (by omega), expandM, if_neg (Ne.symm hij),
        if_pos hgt]

theorem accessStep_eval (W a : Nat) (M : Nat → Nat → Bool) (r c : Nat)
    (hrc : r ≠ c) (hr : r < W) (hc : c < W) :
    accessStep W a M r c =
      if r = a then false else if c = a then true else M r c := by
  rw [accessStep]
  by_cases hra : r = a
  · subst hra
    rw [if_pos ⟨rfl, Ne.symm hrc, hc⟩, if_pos rfl]
  · rw [if_neg (fun hcon => hra hcon.1), if_neg hra]
    by_cases hca : c = a
    · subst hca
      rw [if_pos ⟨rfl, hra, hr⟩, if_pos rfl]
    · rw [if_neg (fun hcon => hca hcon.1), if_neg hca]

theorem accessStep_ok (W a : Nat) (M : Nat → Nat → Bool) (hok : MatOk W M) :
    MatOk W (accessStep W a M) := by
  obtain ⟨hdiag, hcompl⟩ := hok
  constructor
  · intro i
    rw [accessStep, if_neg (by tauto), if_neg (by tauto)]
    exact hdiag i
  · intro i j hi hj hij
    rw [accessStep_eval W a M i j hij hi hj,
      accessStep_eval W a M j i (Ne.symm hij) hj hi]
    by_cases hia : i = a
    · subst hia
      rw [if_pos rfl, if_neg (Ne.symm hij), if_pos rfl]
      rfl
    · rw [if_neg hia]
      by_cases hja : j = a
      · subst hja
        rw [if_pos rfl, if_pos rfl]
        rfl
      · rw [if_neg hja, if_neg hja, if_neg hia]
        exact hcompl i j hi hj hij

theorem foldl_anyAccess_ok (W acc : Nat) (l : List Nat) :
    ∀ (M : Nat → Nat → Bool), MatOk W M →
      MatOk W (l.foldl (fun N i => if acc.testBit i then accessStep W i N else N) M) := by
  induction l with
  | nil => intro M h; exact h
  | cons x xs ih =>
    intro M h
    rw [List.foldl_cons]
    by_cases hx : acc.testBit x
    · rw [if_pos hx]
      exact ih _ (accessStep_ok W x M h)
    · rw [if_neg hx]
      exact ih _ h

theorem applyAccess_ok (W acc : Nat) (M : Nat → Nat → Bool) (h : MatOk W M) :
    MatOk W (applyAccess W acc M) :=
  foldl_anyAccess_ok W acc (List.range W) M h

theorem expandM_compress (W : Nat) (M : Nat → Nat → Bool) (hok : MatOk W M)
    (i j : Nat) (hi : i < W) (hj : j < W) :
    expandM W (compress W M) i j = M i j := by
  obtain ⟨hdiag, hcompl⟩ := hok
  rcases Nat.lt_trichotomy i j with hlt | heq | hgt
  · rw [expandM, if_neg (by omega), if_pos hlt, compress_testBit W M i j hlt hj]
  · subst heq
    rw [expandM, if_pos rfl, hdiag i]
  · rw [expandM, if_neg (by omega), if_neg (by omega),
      compress_testBit W M j i hgt hi, hcompl i j hi hj (by omega)]

theorem foldl_accessStep_zero (W : Nat) (l : List Nat) :
    ∀ M : Nat → Nat → Bool,
      l.foldl (fun N i => if (0 : Nat).testBit i then accessStep W i N else N) M = M := by
  induction l with
  | nil => intro M; rfl
  | cons x xs ih =>
    intro M
    have hx : ¬((0 : Nat).testBit x = true) := by simp
    rw [List.foldl_cons, if_neg hx]
    exact ih M

theorem applyAccess_zero (W : Nat) (M : Nat → Nat → Bool) :
    applyAccess W 0 M = M :=
  foldl_accessStep_zero W (List.range W) M

theorem foldl_accessStep_notmem (W a : Nat) (l : List Nat) (hl : ∀ x ∈ l, x ≠ a) :
    ∀ M : Nat → Nat → Bool,
      l.foldl (fun N i => if (2 ^ a : Nat).testBit i then accessStep W i N else N) M = M := by
  induction l with
  | nil => intro M; rfl
  | cons x xs ih =>
    intro M
    have hx : ¬((2 ^ a : Nat).testBit x = true) := by
      rw [Nat.testBit_two_pow]
      simp [Ne.symm (hl x (List.mem_cons_self x xs))]
    rw [List.foldl_cons, if_neg hx]
    exact ih (fun y hy => hl y (List.mem_cons_of_mem x hy)) M

theorem applyAccess_two_pow (W a : Nat) (ha : a < W) (M : Nat → Nat → Bool) :
    applyAccess W (2 ^ a) M = accessStep W a M := by
  rw [applyAccess]
  have hr : List.range W = List.range a ++ (List.range (W - a)).map (a + ·) := by
    conv_lhs => rw [show W = a + (W - a) by omega]
    exact List.range_add a (W - a)
  rw [hr, List.foldl_append,
    foldl_accessStep_notmem W a (List.range a)
      (fun x hx => by have := List.mem_range.mp hx; omega)]
  rw [show W - a = (W - a - 1) + 1 by omega, List.range_succ_eq_map,
    List.map_cons, List.foldl_cons]
  simp only [Nat.add_zero]
  rw [if_pos Nat.testBit_two_pow_self, List.map_map]
  apply foldl_accessStep_notmem
  intro x hx
  simp only [List.mem_map, List.mem_range, Function.comp] at hx
  obtain ⟨b, _, hb⟩ := hx
  omega

/-! ### Round trip between history words and matrices -/

/-- The first `n` bits of `x`, as a list. -/
def natBits (n x : Nat) : List Bool := (List.range n).map x.testBit

theorem natBits_succ (n x : Nat) :
    natBits (n + 1) x = x.testBit 0 :: natBits n (x / 2) := by
  rw [natBits, List.range_succ_eq_map, List.map_cons, List.map_map, natBits]
  congr 1
  apply List.map_congr_left
  intro k _
  exact Nat.testBit_succ x k

theorem natBits_add (m n x : Nat) :
    natBits (m + n) x = natBits m x ++ natBits n (x >>> m) := by
  induction m generalizing x with
  | zero => simp [natBits]
  | succ m ih =>
    rw [show m + 1 + n = (m + n) + 1 by omega, natBits_succ, ih, natBits_succ,
      List.cons_append]
    congr 2
    rw [Nat.add_comm m 1, Nat.shiftRight_add, Nat.shiftRight_one]

theorem natOfBits_natBits (n x : Nat) : natOfBits (natBits n x) = x % 2 ^ n := by
  induction n generalizing x with
  | zero => simp [natBits, natOfBits, Nat.mod_one]
  | succ n ih =>
    rw [natBits_succ, natOfBits, ih, Nat.pow_succ', Nat.mod_mul]
    congr 1
    rw [Nat.testBit_zero]
    have h2 : x % 2 = 0 ∨ x % 2 = 1 := by omega
    rcases h2 with h | h <;> simp [h]

theorem expandM_shift (W h : Nat) :
    (fun i j => expandM (W + 1) h (i + 1) (j + 1)) = expandM W (h >>> W) := by
  funext i j
  rcases Nat.lt_trichotomy i j with hlt | heq | hgt
  · rw [expandM, if_neg (by omega), if_pos (by omega), expandM, if_neg (by omega),
      if_pos hlt, pairIndex_succ]
    simp only [Nat.add_sub_cancel]
    rw [Nat.testBit_shiftRight]
  · subst heq
    rw [expandM, if_pos rfl, expandM, if_pos rfl]
  · rw [expandM, if_neg (by omega), if_neg (by omega), expandM, if_neg (by omega),
      if_neg (by omega), pairIndex_succ]
    simp only [Nat.add_sub_cancel]
    rw [Nat.testBit_shiftRight]

theorem pairsBits_expandM (W h : Nat) :
    pairsBits W (expandM W h) = natBits (triWidth W) h := by
  induction W generalizing h with
  | zero => rfl
  | succ W ih =>
    rw [pairsBits]
    have h1 : (List.range W).map (fun d => expandM (W + 1) h 0 (d + 1)) = natBits W h := by
      rw [natBits]
      apply List.map_congr_left
      intro d _
      rw [expandM, if_neg (by omega), if_pos (by omega), pairIndex_zero]
      simp only [Nat.add_sub_cancel]
    rw [h1, expandM_shift W h, ih, show triWidth (W + 1) = W + triWidth W from rfl,
      natBits_add]

/-- Claim C3: for every in-range history word, the all-zero access mask is a
no-op — the `update` output equals the input history word (compress is a left
inverse of expand on the history bits) and `lru_post` equals `lru_pre`. -/
theorem lru_noop (W h : Nat) (hlt : h < 2 ^ (W * (W - 1) / 2)) :
    updateHistory W h 0 = h ∧ lru_post W h 0 = lru_pre W h := by
  constructor
  · rw [updateHistory, applyAccess_zero, compress, pairsBits_expandM, natOfBits_natBits]
    rw [← triWidth_eq] at hlt
    exact Nat.mod_eq_of_lt hlt
  · rw [lru_post, applyAccess_zero, lru_pre]

/-- Witness for `lru_noop` at the worked-example history `0b110100`. -/
theorem lru_noop_witness :
    (52 : Nat) < 2 ^ (4 * (4 - 1) / 2) ∧
      (updateHistory 4 52 0 = 52 ∧ lru_post 4 52 0 = lru_pre 4 52) :=
  ⟨by decide, lru_noop 4 52 (by decide)⟩

theorem pairsBitsB_eq (W : Nat) (M : Nat → Nat → Bool) : pairsBitsB W M = pairsBits W M := by
  induction W generalizing M with
  | zero => rfl
  | succ W ih => rw [pairsBitsB, pairsBits, ih]

/-- Claim C10: for every current history word and every access mask, the two
`CacheLRU` code paths — generated with and without the `lru_post` port —
compute identical `lru_pre` and `update` outputs. -/
theorem lru_branches_agree (W current access : Nat) :
    lru_preB W current = lru_pre W current ∧
      updateHistoryB W current access = updateHistory W current access := by
  refine ⟨rfl, ?_⟩
  rw [updateHistoryB, pairsBitsB_eq]
  rfl

/-! ### Claim C2: the history invariant -/

/-- "Way i is older than way j" as encoded by history word `h`. -/
def olderThan (W h i j : Nat) : Prop := i ≠ j ∧ expandM W h i j = true

/-- Transitivity of the strict "older than" relation read off a matrix. -/
def TransOn (W : Nat) (M : Nat → Nat → Bool) : Prop :=
  ∀ i j k, i < W → j < W → k < W → i ≠ j → j ≠ k →
    M i j = true → M j k = true → i ≠ k ∧ M i k = true

theorem expandM_zero_eval (W i j : Nat) (hij : i ≠ j) :
    expandM W 0 i j = decide (j < i) := by
  rcases Nat.lt_trichotomy i j with hlt | heq | hgt
  · have hnot : ¬(j < i) := by omega
    rw [expandM, if_neg hij, if_pos hlt]
    simp [Nat.zero_testBit, hnot]
  · exact absurd heq hij
  · rw [expandM, if_neg hij, if_neg (by omega)]
    simp [Nat.zero_testBit, hgt]

theorem transOn_zero (W : Nat) : TransOn W (expandM W 0) := by
  intro i j k _ _ _ hij hjk h1 h2
  rw [expandM_zero_eval W i j hij] at h1
  rw [expandM_zero_eval W j k hjk] at h2
  simp only [decide_eq_true_eq] at h1 h2
  refine ⟨by omega, ?_⟩
  rw [expandM_zero_eval W i k (by omega)]
  simp only [decide_eq_true_eq]
  omega

theorem transOn_congr (W : Nat) (M N : Nat → Nat → Bool)
    (hequiv : ∀ i j, i < W → j < W → N i j = M i j) (ht : TransOn W M) :
    TransOn W N := by
  intro i j k hi hj hk hij hjk h1 h2
  rw [hequiv i j hi hj] at h1
  rw [hequiv j k hj hk] at h2
  obtain ⟨hik, h3⟩ := ht i j k hi hj hk hij hjk h1 h2
  exact ⟨hik, by rw [hequiv i k hi hk]; exact h3⟩

theorem transOn_accessStep (W a : Nat) (M : Nat → Nat → Bool)
    (ht : TransOn W M) : TransOn W (accessStep W a M) := by
  intro i j k hi hj hk hij hjk h1 h2
  rw [accessStep_eval W a M i j hij hi hj] at h1
  rw [accessStep_eval W a M j k hjk hj hk] at h2
  by_cases hia : i = a
  · rw [if_pos hia] at h1
    exact absurd h1 (by simp)
  by_cases hja : j = a
  · rw [if_pos hja] at h2
    exact absurd h2 (by simp)
  rw [if_neg hia, if_neg hja] at h1
  rw [if_neg hja] at h2
  by_cases hka : k = a
  · refine ⟨by omega, ?_⟩
    rw [accessStep_eval W a M i k (by omega) hi hk, if_neg hia, if_pos hka]
  · rw [if_neg hka] at h2
    obtain ⟨hik, h3⟩ := ht i j k hi hj hk hij hjk h1 h2
    refine ⟨hik, ?_⟩
    rw [accessStep_eval W a M i k hik hi hk, if_neg hia, if_neg hka]
    exact h3

/-- One-hot-or-zero access masks: the caller contract of `CacheLRU`. -/
def OneHotOrZero (W a : Nat) : Prop := a = 0 ∨ ∃ t, t < W ∧ a = 2 ^ t

/-- History words reachable from the reset (all-zero) word by the module's
own update rule under one-hot-or-zero accesses. -/
inductive Reachable (W : Nat) : Nat → Prop where
  | zero : Reachable W 0
  | step (h a : Nat) : Reachable W h → OneHotOrZero W a →
      Reachable W (updateHistory W h a)

theorem reachable_transOn (W h : Nat) (hr : Reachable W h) :
    TransOn W (expandM W h) := by
  induction hr with
  | zero => exact transOn_zero W
  | step h a _ hacc ih =>
    rcases hacc with rfl | ⟨t, htW, rfl⟩
    · rw [updateHistory, applyAccess_zero]
      exact transOn_congr W (expandM W h) _
        (fun i j hi hj => expandM_compress W (expandM W h) (expandM_ok W h) i j hi hj) ih
    · rw [updateHistory, applyAccess_two_pow W t htW]
      have hok := accessStep_ok W t (expandM W h) (expandM_ok W h)
      exact transOn_congr W (accessStep W t (expandM W h)) _
        (fun i j hi hj => expandM_compress W _ hok i j hi hj)
        (transOn_accessStep W t (expandM W h) ih)

/-- Claim C2: every history word reachable from the reset word by
one-hot-or-zero access updates expands to a matrix with `M[i][i] = 1` and
`M[i][j] = NOT M[j][i]` for `i ≠ j`, and the pairwise older-than relation it
encodes is a strict total order (trichotomous, asymmetric and transitive);
the update step of `CacheLRU` preserves this. -/
theorem lru_history_invariant (W h : Nat) (hr : Reachable W h) :
    (∀ i, i < W → expandM W h i i = true) ∧
    (∀ i j, i < W → j < W → i ≠ j → expandM W h i j = !expandM W h j i) ∧
    (∀ i j, i < W → j < W → i ≠ j →
      (olderThan W h i j ∨ olderThan W h j i) ∧
        ¬(olderThan W h i j ∧ olderThan W h j i)) ∧
    (∀ i j k, i < W → j < W → k < W →
      olderThan W h i j → olderThan W h j k → olderThan W h i k) := by
  obtain ⟨hdiag, hcompl⟩ := expandM_ok W h
  have htr := reachable_transOn W h hr
  refine ⟨fun i _ => hdiag i, fun i j hi hj hij => hcompl i j hi hj hij, ?_, ?_⟩
  · intro i j hi hj hij
    have hc := hcompl i j hi hj hij
    constructor
    · cases hji : expandM W h j i with
      | true => exact Or.inr ⟨Ne.symm hij, hji⟩
      | false =>
        rw [hji] at hc
        exact Or.inl ⟨hij, by rw [hc]; rfl⟩
    · rintro ⟨⟨_, h1⟩, ⟨_, h2⟩⟩
      rw [h1, h2] at hc
      exact absurd hc (by simp)
  · intro i j k hi hj hk h1 h2
    obtain ⟨hij, h1v⟩ := h1
    obtain ⟨hjk, h2v⟩ := h2
    obtain ⟨hik, h3⟩ := htr i j k hi hj hk hij hjk h1v h2v
    exact ⟨hik, h3⟩

/-- Witness for `lru_history_invariant` at the reachable history `0b110100`
(reset followed by an access to way 3). -/
theorem lru_history_invariant_witness :
    (∀ i, i < 4 → expandM 4 (updateHistory 4 0 8) i i = true) ∧
    (∀ i j, i < 4 → j < 4 → i ≠ j →
      expandM 4 (updateHistory 4 0 8) i j = !expandM 4 (updateHistory 4 0 8) j i) ∧
    (∀ i j, i < 4 → j < 4 → i ≠ j →
      (olderThan 4 (updateHistory 4 0 8) i j ∨ olderThan 4 (updateHistory 4 0 8) j i) ∧
        ¬(olderThan 4 (updateHistory 4 0 8) i j ∧ olderThan 4 (updateHistory 4 0 8) j i)) ∧
    (∀ i j k, i < 4 → j < 4 → k < 4 →
      olderThan 4 (updateHistory 4 0 8) i j → olderThan 4 (updateHistory 4 0 8) j k →
        olderThan 4 (updateHistory 4 0 8) i k) :=
  lru_history_invariant 4 (updateHistory 4 0 8)
    (Reachable.step 0 8 Reachable.zero (Or.inr ⟨3, by decide, by decide⟩))

/-! ### Claim C1: eviction correctness over access sequences -/

/-- Strict "older than" relation on ways determined by an access sequence,
most recent access first; on the reset history a higher index is older. -/
def olderB : List Nat → Nat → Nat → Bool
  | [], i, j => decide (j < i)
  | x :: xs, i, j =>
      if j = x then decide (i ≠ x) else if i = x then false else olderB xs i j

/-- Run `CacheLRU` over a sequence of way accesses starting from the reset
history, feeding each access as a one-hot mask and folding the `update`
output back in as the next current history. -/
def runHistory (W : Nat) (ways : List Nat) : Nat :=
  ways.foldl (fun h a => updateHistory W h (2 ^ a)) 0

/-- History word `h` encodes exactly the order given by `rs` (most recent
access first). -/
def Encodes (W h : Nat) (rs : List Nat) : Prop :=
  ∀ i j, i < W → j < W → i ≠ j → expandM W h i j = olderB rs i j

theorem encodes_zero (W : Nat) : Encodes W 0 [] := by
  intro i j hi hj hij
  rw [expandM_zero_eval W i j hij, olderB]

theorem encodes_step (W h a : Nat) (ha : a < W) (rs : List Nat)
    (he : Encodes W h rs) : Encodes W (updateHistory W h (2 ^ a)) (a :: rs) := by
  intro i j hi hj hij
  rw [updateHistory, applyAccess_two_pow W a ha,
    expandM_compress W _ (accessStep_ok W a _ (expandM_ok W h)) i j hi hj,
    accessStep_eval W a (expandM W h) i j hij hi hj, olderB]
  by_cases hja : j = a
  · have hia : i ≠ a := by omega
    simp [hja, hia]
  · by_cases hia : i = a
    · simp [hja, hia]
    · simp [hja, hia, he i j hi hj hij]

theorem encodes_run_aux (W : Nat) (l : List Nat) :
    ∀ (h0 : Nat) (rs : List Nat), (∀ x ∈ l, x < W) → Encodes W h0 rs →
      Encodes W (l.foldl (fun h a => updateHistory W h (2 ^ a)) h0)
        (l.reverse ++ rs) := by
  induction l with
  | nil =>
    intro h0 rs _ he
    simpa using he
  | cons x xs ih =>
    intro h0 rs hb he
    have hres : (x :: xs).reverse ++ rs = xs.reverse ++ (x :: rs) := by
      rw [List.reverse_cons, List.append_assoc, List.singleton_append]
    rw [List.foldl_cons, hres]
    exact ih _ (x :: rs) (fun y hy => hb y (List.mem_cons_of_mem x hy))
      (encodes_step W h0 x (hb x (List.mem_cons_self x xs)) rs he)

theorem encodes_run (W : Nat) (ways : List Nat) (hb : ∀ x ∈ ways, x < W) :
    Encodes W (runHistory W ways) ways.reverse := by
  have h := encodes_run_aux W ways 0 [] hb (encodes_zero W)
  simpa [runHistory] using h

theorem olderB_oldest (l : List Nat) (m j : Nat) (hm : m ∉ l)
    (hcase : j ∈ l ∨ j < m) : olderB l m j = true := by
  induction l with
  | nil =>
    rcases hcase with h | h
    · simp at h
    · rw [olderB]
      simpa using h
  | cons x xs ih =>
    have hmx : m ≠ x := fun he => hm (by rw [he]; exact List.mem_cons_self x xs)
    rw [olderB]
    by_cases hjx : j = x
    · rw [if_pos hjx]
      simp [hmx]
    · rw [if_neg hjx, if_neg hmx]
      apply ih (fun hx => hm (List.mem_cons_of_mem x hx))
      rcases hcase with h | h
      · rcases List.mem_cons.mp h with h1 | h1
        · exact absurd h1 hjx
        · exact Or.inl h1
      · exact Or.inr h

theorem olderB_accessed_vs_idle (l : List Nat) (p m : Nat) (hp : p ∈ l)
    (hm : m ∉ l) : olderB l p m = false := by
  induction l with
  | nil => simp at hp
  | cons x xs ih =>
    have hmx : m ≠ x := fun he => hm (by rw [he]; exact List.mem_cons_self x xs)
    rw [olderB, if_neg hmx]
    by_cases hpx : p = x
    · rw [if_pos hpx]
    · rw [if_neg hpx]
      refine ih ?_ (fun hx => hm (List.mem_cons_of_mem x hx))
      rcases List.mem_cons.mp hp with h | h
      · exact absurd h hpx
      · exact h

theorem olderB_both_idle (l : List Nat) (p m : Nat) (hp : p ∉ l) (hm : m ∉ l) :
    olderB l p m = decide (m < p) := by
  induction l with
  | nil => rfl
  | cons x xs ih =>
    have hmx : m ≠ x := fun he => hm (by rw [he]; exact List.mem_cons_self x xs)
    have hpx : p ≠ x := fun he => hp (by rw [he]; exact List.mem_cons_self x xs)
    rw [olderB, if_neg hmx, if_neg hpx]
    exact ih (fun hx => hp (List.mem_cons_of_mem x hx))
      (fun hx => hm (List.mem_cons_of_mem x hx))

theorem foldl_and_eq (f : Nat → Bool) (l : List Nat) :
    ∀ b : Bool, l.foldl (fun v j => v && f j) b = (b && l.all f) := by
  induction l with
  | nil => intro b; simp
  | cons x xs ih =>
    intro b
    rw [List.foldl_cons, ih, List.all_cons, Bool.and_assoc]

theorem rowAnd_eq_true (W : Nat) (M : Nat → Nat → Bool) (i : Nat) :
    rowAnd W M i = true ↔ ∀ j, j < W → M i j = true := by
  rw [rowAnd, foldl_and_eq]
  simp [List.all_eq_true, List.mem_range]

theorem map_range_getD {α : Type} (f : Nat → α) (d : α) (W k : Nat) :
    ((List.range W).map f).getD k d = if k < W then f k else d := by
  by_cases hk : k < W
  · rw [List.getD_eq_getElem?_getD, List.getElem?_map, List.getElem?_range hk,
      if_pos hk]
    rfl
  · rw [List.getD_eq_getElem?_getD, List.getElem?_eq_none (by simpa using hk),
      if_neg hk]
    rfl

/-- Claim C1 (amended): from the reset history, after any sequence of
accesses to ways of `ways` (all `< W`) that leaves at least one way
untouched, the eviction mask `lru_pre` is one-hot of the highest-indexed
way absent from the accesses — in particular a way not among them, and the
unique absent way when exactly one way is untouched.  (For `k = W` distinct
accesses no way is absent and the mask selects the least recent access, see
the counterexample.)  Moreover the worked example of the source holds:
history `0b110100` with an access to way 2 yields `lru_pre = one-hot(2)`,
`update = 0b011110` and `lru_post = one-hot(1)`. -/
theorem lru_eviction (W : Nat) (ways : List Nat) (m : Nat)
    (hb : ∀ x ∈ ways, x < W) (hmW : m < W) (hm : m ∉ ways)
    (hmax : ∀ j, j < W → j ∉ ways → j ≤ m) :
    lru_pre W (runHistory W ways) = 2 ^ m ∧
      (lru_pre 4 52 = 4 ∧ updateHistory 4 52 4 = 30 ∧ lru_post 4 52 4 = 2) := by
  refine ⟨?_, by decide, by decide, by decide⟩
  have henc := encodes_run W ways hb
  rw [lru_pre]
  apply natOfBits_eq_two_pow
  intro k
  rw [map_range_getD]
  by_cases hk : k < W
  · rw [if_pos hk]
    by_cases hkm : k = m
    · subst hkm
      have hrow : rowAnd W (expandM W (runHistory W ways)) k = true := by
        rw [rowAnd_eq_true]
        intro j hj
        by_cases hjk : j = k
        · subst hjk
          exact (expandM_ok W _).1 j
        · rw [henc k j hk hj (Ne.symm hjk)]
          refine olderB_oldest _ k j (by simpa using hm) ?_
          by_cases hjin : j ∈ ways
          · exact Or.inl (by simpa using hjin)
          · exact Or.inr (by have := hmax j hj hjin; omega)
      rw [hrow]
      simp
    · have hrow : rowAnd W (expandM W (runHistory W ways)) k = false := by
        cases hr : rowAnd W (expandM W (runHistory W ways)) k with
        | false => rfl
        | true =>
          exfalso
          have hall := (rowAnd_eq_true _ _ _).mp hr
          have hkm2 := hall m hmW
          rw [henc k m hk hmW hkm] at hkm2
          by_cases hkin : k ∈ ways
          · rw [olderB_accessed_vs_idle _ k m (by simpa using hkin)
              (by simpa using hm)] at hkm2
            exact absurd hkm2 (by simp)
          · rw [olderB_both_idle _ k m (by simpa using hkin)
              (by simpa using hm)] at hkm2
            have hlt : k < m := by have := hmax k hk hkin; omega
            simp at hkm2
            omega
      rw [hrow]
      simp [hkm]
  · rw [if_neg hk]
    have hne : k ≠ m := by omega
    simp [hne]

/-- Claim C1 counterexample: for `W = 2`, after the `k = W = 2` distinct
accesses `[0, 1]` the eviction mask is one-hot of way 0, yet every way is
present in the most recent `min(k, W) = 2` accesses — the mask does not (and
cannot) select "the way not present" in them. -/
theorem lru_eviction_cex :
    lru_pre 2 (runHistory 2 [0, 1]) = 2 ^ 0 ∧
      (0 : Nat) ∈ ([0, 1] : List Nat) ∧ (1 : Nat) ∈ ([0, 1] : List Nat) :=
  ⟨by decide, by decide, by decide⟩

/-- Witness for `lru_eviction`: `W = 4`, accesses `[3, 0, 1]`, way 2 is the
only untouched way and is chosen for eviction. -/
theorem lru_eviction_witness :
    (∀ x ∈ ([3, 0, 1] : List Nat), x < 4) ∧ 2 < 4 ∧
      2 ∉ ([3, 0, 1] : List Nat) ∧
      (∀ j, j < 4 → j ∉ ([3, 0, 1] : List Nat) → j ≤ 2) ∧
      (lru_pre 4 (runHistory 4 [3, 0, 1]) = 2 ^ 2 ∧
        (lru_pre 4 52 = 4 ∧ updateHistory 4 52 4 = 30 ∧ lru_post 4 52 4 = 2)) :=
  ⟨by decide, by decide, by decide, by decide,
    lru_eviction 4 [3, 0, 1] 2 (by decide) (by decide) (by decide) (by decide)⟩

/-!
Part 2 embeds `Core/icache.py` (`ICache`, the `cache()` branch) as a
cycle-stepped state machine, together with the instruction port of the
simulation memory (`Simulation/core/memory.py`) for closed-loop refill
reasoning.  All multi-bit signals are `Nat` with explicit `% 2 ^ width`
where the myhdl `modbv` width matters.
-/

/-- Memory operations of the requester / memory interfaces.
Modelled from the spec: `Core/memIO.py` (`MemOp`) is not among the sources;
§6 gives `operation: {READ, WRITE, NONE}`. -/
inductive MemOp where
  | M_NOP : MemOp
  | M_RD : MemOp
  | M_WR : MemOp
deriving DecidableEq

/-- Controller states (`ic_states`). -/
inductive IcState where
  | CHECK : IcState
  | FETCH : IcState
  | WAIT : IcState
  | FLUSH : IcState
  | FLUSH_LAST : IcState
deriving DecidableEq

/-- Construction-time configuration of `ICache`; `D_WIDTH` is fixed at 32
by the first assert. -/
structure ICacheCfg where
  BLOCK_WIDTH : Nat
  SET_WIDTH : Nat
  WAYS : Nat
  LIMIT_WIDTH : Nat

def WAY_WIDTH (c : ICacheCfg) : Nat := c.BLOCK_WIDTH + c.SET_WIDTH

def TAG_WIDTH (c : ICacheCfg) : Nat := c.LIMIT_WIDTH - WAY_WIDTH c

def TAGMEM_WAY_WIDTH (c : ICacheCfg) : Nat := TAG_WIDTH c + 1

def TAG_LRU_WIDTH (c : ICacheCfg) : Nat := (c.WAYS * (c.WAYS - 1)) >>> 1

def TAGMEM_WIDTH (c : ICacheCfg) : Nat :=
  TAGMEM_WAY_WIDTH c * c.WAYS + TAG_LRU_WIDTH c

/-- CPU-side request signals read by the cache in one cycle. -/
structure CpuIn where
  addr : Nat
  fcn : MemOp
  valid : Bool

/-- Memory-side response signals read by the cache in one cycle. -/
structure MemResp where
  rdata : Nat
  ready : Bool
  fault : Bool

/-- Registered state of one enabled `ICache` instance: the controller
registers plus the contents and registered read outputs of the tag RAM and
the per-way data RAMs. -/
structure CacheState where
  state : IcState
  valid_q : Bool
  refill_addr : Nat
  refill_valid : Bool
  flush : Bool
  flush_addr : Nat
  flush_we : Bool
  tagMem : Nat → Nat
  tagDataO : Nat
  dataMem : Nat → Nat → Nat
  dataO : Nat → Nat

/-- `cpu.addr[WAY_WIDTH:BLOCK_WIDTH]`: the set index of an address. -/
def setIndex (c : ICacheCfg) (addr : Nat) : Nat :=
  (addr >>> c.BLOCK_WIDTH) % 2 ^ c.SET_WIDTH

/-- `cpu.addr[LIMIT_WIDTH:WAY_WIDTH]`: the tag field of an address. -/
def addrTag (c : ICacheCfg) (addr : Nat) : Nat :=
  (addr >>> WAY_WIDTH c) % 2 ^ (c.LIMIT_WIDTH - WAY_WIDTH c)

/-- `tag_rport` read side: way `i`'s slice
`data_o[TAGMEM_WAY_WIDTH*(i+1):TAGMEM_WAY_WIDTH*i]` of the registered
tag-RAM output. -/
def tag_out (c : ICacheCfg) (s : CacheState) (i : Nat) : Nat :=
  (s.tagDataO >>> (TAGMEM_WAY_WIDTH c * i)) % 2 ^ TAGMEM_WAY_WIDTH c

/-- `lru_out`: the top slice `data_o[TAGMEM_WIDTH:TAGMEM_WAY_WIDTH*WAYS]`. -/
def lru_out (c : ICacheCfg) (s : CacheState) : Nat :=
  (s.tagDataO >>> (TAGMEM_WAY_WIDTH c * c.WAYS)) % 2 ^ TAG_LRU_WIDTH c

/-- `miss_check`: per-way miss bits
`value[i] = (not valid bit) or (stored tag != address tag)`. -/
def miss_w (c : ICacheCfg) (s : CacheState) (addr : Nat) : Nat :=
  natOfBits ((List.range c.WAYS).map (fun i =>
    !(tag_out c s i).testBit (TAG_WIDTH c) ||
      decide (tag_out c s i % 2 ^ TAG_WIDTH c ≠ addrTag c addr)))

/-- `miss_check_2`: AND-reduce of the per-way miss bits. -/
def miss_w_and (c : ICacheCfg) (s : CacheState) (addr : Nat) : Bool :=
  (List.range c.WAYS).foldl (fun v i => v && (miss_w c s addr).testBit i) true

/-- `miss_check_3`: overall miss — all ways missed, the operation is a
read, and the module is neither flushing nor asked to invalidate. -/
def missSig (c : ICacheCfg) (s : CacheState) (cpu : CpuIn) (invalidate : Bool) :
    Bool :=
  miss_w_and c s cpu.addr && decide (cpu.fcn = MemOp.M_RD) && !s.flush && !invalidate

/-- `busy = state != CHECK` (from `assignments`). -/
def busy (s : CacheState) : Bool := decide (s.state ≠ IcState.CHECK)

/-- `modbv(~3)[BLOCK_WIDTH:]`: the two's-complement of 4 truncated to the
block-offset width, i.e. the offset of the last word of a line. -/
def lastWordOffset (c : ICacheCfg) : Nat :=
  (2 ^ c.BLOCK_WIDTH - 4 % 2 ^ c.BLOCK_WIDTH) % 2 ^ c.BLOCK_WIDTH

/-- `final_fetch` (from `assignments`, with `mem.valid = refill_valid` per
`mem_port_assign`). -/
def final_fetch (c : ICacheCfg) (s : CacheState) (mem : MemResp) : Bool :=
  decide (s.refill_addr % 2 ^ c.BLOCK_WIDTH = lastWordOffset c) && mem.ready &&
    !s.refill_valid

/-- `final_flush = (flush_addr == 0)`. -/
def final_flush (s : CacheState) : Bool := decide (s.flush_addr = 0)

/-- `access_lru = ~miss_w`, the WAYS-wide complement. -/
def access_lru (c : ICacheCfg) (s : CacheState) (addr : Nat) : Nat :=
  miss_w c s addr ^^^ (2 ^ c.WAYS - 1)

/-- `lru_pre` of the `CacheLRU` instance fed with `current_lru = lru_out`;
also `lru_select` (from `assignments`). -/
def lru_select (c : ICacheCfg) (s : CacheState) : Nat :=
  lru_pre c.WAYS (lru_out c s)

/-- `update_lru` of the `CacheLRU` instance. -/
def update_lru (c : ICacheCfg) (s : CacheState) (addr : Nat) : Nat :=
  updateHistory c.WAYS (lru_out c s) (access_lru c s addr)

/-- `next_state_logic`. -/
def nextState (c : ICacheCfg) (s : CacheState) (cpu : CpuIn) (invalidate : Bool)
    (mem : MemResp) : IcState :=
  match s.state with
  | IcState.CHECK =>
      if s.flush || invalidate then IcState.FLUSH
      else if missSig c s cpu invalidate then IcState.FETCH
      else IcState.CHECK
  | IcState.FETCH => if final_fetch c s mem then IcState.WAIT else IcState.FETCH
  | IcState.FLUSH => if final_flush s then IcState.FLUSH_LAST else IcState.FLUSH
  | IcState.FLUSH_LAST => IcState.WAIT
  | IcState.WAIT => IcState.CHECK

/-- `fetch_fsm`: next `(refill_addr, refill_valid)`.  Defaults are
`(refill_addr, False)`; on an accepted miss the refill address is the
request address with the block offset zeroed
(`concat(cpu.addr[LIMIT_WIDTH:BLOCK_WIDTH], 0)`); in `FETCH` the valid is
`not mem.ready`, and when a beat completes (`not refill_valid and
mem.ready`) the address advances by `modbv(4)[BLOCK_WIDTH:]` (or clears on
the final beat). -/
def fetchNext (c : ICacheCfg) (s : CacheState) (cpu : CpuIn) (invalidate : Bool)
    (mem : MemResp) : Nat × Bool :=
  match s.state with
  | IcState.CHECK =>
      if s.flush || invalidate then (s.refill_addr, false)
      else if missSig c s cpu invalidate then
        (((cpu.addr >>> c.BLOCK_WIDTH) % 2 ^ (c.LIMIT_WIDTH - c.BLOCK_WIDTH)) <<<
            c.BLOCK_WIDTH,
          true)
      else (s.refill_addr, false)
  | IcState.FETCH =>
      if !s.refill_valid && mem.ready then
        if final_fetch c s mem then (0, false)
        else ((s.refill_addr + 4 % 2 ^ c.BLOCK_WIDTH) % 2 ^ c.LIMIT_WIDTH, !mem.ready)
      else (s.refill_addr, !mem.ready)
  | _ => (s.refill_addr, false)

/-- `tag_write`, way field: in `CHECK` on a miss the `lru_select` ways get
`concat(True, cpu.addr[LIMIT_WIDTH:WAY_WIDTH])`; otherwise the default
write-back `tag_in[i] = tag_out[i]`. -/
def tag_in (c : ICacheCfg) (s : CacheState) (cpu : CpuIn) (invalidate : Bool)
    (i : Nat) : Nat :=
  if s.state = IcState.CHECK ∧ missSig c s cpu invalidate = true ∧
      (lru_select c s).testBit i = true then
    2 ^ TAG_WIDTH c + addrTag c cpu.addr
  else tag_out c s i

/-- `tag_write`, LRU field: in `CHECK` without a miss the updated history,
else the default write-back `lru_in = lru_out`. -/
def lru_in (c : ICacheCfg) (s : CacheState) (cpu : CpuIn) (invalidate : Bool) :
    Nat :=
  if s.state = IcState.CHECK ∧ missSig c s cpu invalidate = false then
    update_lru c s cpu.addr
  else lru_out c s

/-- `tag_write`, write enable.  In state `CHECK` both branches of the
`if miss / else` set `tag_we = True` (the preceding
`if flush or invalidate: tag_we = False` is overridden by them), so the
enable is exactly `state == CHECK`. -/
def tag_we (s : CacheState) : Bool := decide (s.state = IcState.CHECK)

/-- Little-endian packing of equal-width fields, as the `tag_rport` loop
`temp[TAGMEM_WAY_WIDTH*(i+1):TAGMEM_WAY_WIDTH*i] = tag_in[i]` (each field
truncated to its slice width). -/
def packChunks (w : Nat) : List Nat → Nat
  | [] => 0
  | x :: xs => x % 2 ^ w + 2 ^ w * packChunks w xs

/-- `tag_rport` write side: the packed `temp` word, ways first, then the
LRU field at `temp[TAGMEM_WIDTH:TAGMEM_WAY_WIDTH*WAYS]`. -/
def tagWData (c : ICacheCfg) (s : CacheState) (cpu : CpuIn) (invalidate : Bool) :
    Nat :=
  packChunks (TAGMEM_WAY_WIDTH c)
      ((List.range c.WAYS).map (tag_in c s cpu invalidate)) +
    2 ^ (TAGMEM_WAY_WIDTH c * c.WAYS) *
      (lru_in c s cpu invalidate % 2 ^ TAG_LRU_WIDTH c)

/-- `flush_next_state`: next `(flush, flush_addr, flush_we)`.  Defaults
carry the registers with `flush_we = False`; `CHECK` with a pending
flush/invalidate clears the pulse and arms a sweep from the top set;
`FLUSH` decrements the address (`flush_addr - modbv(1)[SET_WIDTH:]`,
wrapping on SET_WIDTH bits); `FLUSH_LAST` only clears the write enable; all
other states latch `flush = invalidate`. -/
def flushNext (c : ICacheCfg) (s : CacheState) (invalidate : Bool) :
    Bool × Nat × Bool :=
  match s.state with
  | IcState.CHECK =>
      if s.flush || invalidate then (false, 2 ^ c.SET_WIDTH - 1, true)
      else (s.flush, s.flush_addr, false)
  | IcState.FLUSH =>
      (s.flush,
        (s.flush_addr + (2 ^ c.SET_WIDTH - 1 % 2 ^ c.SET_WIDTH)) % 2 ^ c.SET_WIDTH,
        true)
  | IcState.FLUSH_LAST => (s.flush, s.flush_addr, false)
  | _ => (invalidate, s.flush_addr, false)

/-- `cpu_ready_assign` as a function of its four input signals. -/
def cpuReadyComb (b : Bool) (fcn : MemOp) (vq mwa : Bool) : Bool :=
  if b then false else if fcn = MemOp.M_RD then vq && !mwa else false

/-- `cpu.ready` of the instance. -/
def cpuReady (c : ICacheCfg) (s : CacheState) (cpu : CpuIn) : Bool :=
  cpuReadyComb (busy s) cpu.fcn s.valid_q (miss_w_and c s cpu.addr)

/-- `cpu_port_assign` read data: the loop keeps the last way whose miss bit
is clear, defaulting to `0x12345678`. -/
def cpuRData (c : ICacheCfg) (s : CacheState) (addr : Nat) : Nat :=
  (List.range c.WAYS).foldl
    (fun t i => if !(miss_w c s addr).testBit i then s.dataO i else t) 0x12345678

/-- Modelled from the spec: `Core/ram_dp.py` (`RAM_DP`) is not among the
sources.  §2/§3 describe it as the generic dual-port storage primitive
behind TagStore/DataArray, read every cycle through registered outputs (the
one-cycle request/response pipeline of §4.2 and §6) and written under a
write enable.  On a clock edge a port stores `data_i` (truncated to the
data width) at `addr` when `we` is set. -/
def ramWrite (width : Nat) (mem : Nat → Nat) (we : Bool) (addr data : Nat) :
    Nat → Nat :=
  if we then Function.update mem addr (data % 2 ^ width) else mem

/-- One clock edge of the enabled `ICache`: the registered processes
`reg_read`, `update_state`, `update_fetch`, `update_flush` and the RAM
ports all fire on the pre-edge combinational values.  The tag RAM is
written by the r/w port (`tag_we`, at the set of `cpu.addr`, with `temp`)
and by the flush port (`flush_we`, at `flush_addr`, with zero — its
`data_i` is `modbv(0)`); the two enables are never set for the same
address in reachable operation, so the modelled order is immaterial.  Each
data RAM way is written with `mem.rdata` at `refill_addr[WAY_WIDTH:2]`
under `lru_select[i] & mem.ready` (`cache_mem_update`), and read at
`cpu.addr[WAY_WIDTH:2]` (`cache_mem_r`). -/
def icStep (c : ICacheCfg) (s : CacheState) (cpu : CpuIn) (invalidate : Bool)
    (mem : MemResp) (rst : Bool) : CacheState :=
  { state := if rst then IcState.FLUSH else nextState c s cpu invalidate mem
    valid_q := !rst && cpu.valid
    refill_addr := if rst then 0 else (fetchNext c s cpu invalidate mem).1
    refill_valid := if rst then false else (fetchNext c s cpu invalidate mem).2
    flush := if rst then false else (flushNext c s invalidate).1
    flush_addr :=
      if rst then 2 ^ c.SET_WIDTH - 1 else (flushNext c s invalidate).2.1
    flush_we := if rst then false else (flushNext c s invalidate).2.2
    tagMem :=
      ramWrite (TAGMEM_WIDTH c)
        (ramWrite (TAGMEM_WIDTH c) s.tagMem (tag_we s) (setIndex c cpu.addr)
          (tagWData c s cpu invalidate))
        s.flush_we s.flush_addr 0
    tagDataO := s.tagMem (setIndex c cpu.addr)
    dataMem := fun i =>
      ramWrite 32 (s.dataMem i) ((lru_select c s).testBit i && mem.ready)
        ((s.refill_addr % 2 ^ WAY_WIDTH c) >>> 2) mem.rdata
    dataO := fun i => s.dataMem i ((cpu.addr % 2 ^ WAY_WIDTH c) >>> 2) }

/-! ### The simulation memory, instruction port -/

/-- State of the instruction port of `Simulation/core/memory.py`:
word-addressed storage (32-bit words), with registered `ready`, registered
read data `i_data_o` and registered `fault`. -/
structure MemState where
  mem : Nat → Nat
  ready : Bool
  i_data_o : Nat
  fault : Bool

/-- Memory-side request signals as driven by the cache
(`mem_port_assign`). -/
structure MemReq where
  addr : Nat
  fcn : MemOp
  wdata : Nat
  wr : Nat
  valid : Bool

/-- `assignment_addr`: the word address `imem.addr[aw:2]`. -/
def memWordAddr (aw addr : Nat) : Nat := (addr % 2 ^ aw) >>> 2

/-- `assignment_data_o`: `rdata = i_data_o if ready else 0xDEADF00D`. -/
def memRData (m : MemState) : Nat := if m.ready then m.i_data_o else 0xDEADF00D

/-- Byte merge of the `M_WR` branch of `imem_rtl`: strobe `we[b]` (with a
valid request) selects byte `b` of the write data over the stored byte. -/
def byteMerge (old data wr : Nat) (valid : Bool) : Nat :=
  (List.range 4).foldl
    (fun acc b =>
      acc + 2 ^ (8 * b) *
        (if wr.testBit b && valid then (data >>> (8 * b)) % 2 ^ 8
         else (old >>> (8 * b)) % 2 ^ 8))
    0

/-- One clock edge of the memory's instruction port (`set_ready_signal`,
`set_fault`, `imem_rtl`): ready registers the request valid, the read data
registers the stored word, and an `M_WR` request byte-merges the stored
word (and forwards `wdata` to `i_data_o`). -/
def memStep (aw : Nat) (m : MemState) (req : MemReq) (rst : Bool) : MemState :=
  { mem :=
      if req.fcn = MemOp.M_WR then
        Function.update m.mem (memWordAddr aw req.addr)
          ((byteMerge (m.mem (memWordAddr aw req.addr)) req.wdata req.wr req.valid) %
            2 ^ 32)
      else m.mem
    ready := !rst && req.valid
    i_data_o :=
      if req.fcn = MemOp.M_WR then req.wdata % 2 ^ 32
      else m.mem (memWordAddr aw req.addr) % 2 ^ 32
    fault := false }

/-- The cache's memory-side outputs (`mem_port_assign`). -/
def memReqOf (s : CacheState) : MemReq :=
  { addr := s.refill_addr
    fcn := MemOp.M_RD
    wdata := 0x0BADF00D
    wr := 0
    valid := s.refill_valid }

/-- The memory's response as seen by the cache. -/
def memRespOf (m : MemState) : MemResp :=
  { rdata := memRData m, ready := m.ready, fault := m.fault }

/-- One clock edge of the closed system cache + simulation memory. -/
def sysStep (c : ICacheCfg) (aw : Nat) (p : CacheState × MemState) (cpu : CpuIn)
    (invalidate : Bool) (rst : Bool) : CacheState × MemState :=
  (icStep c p.1 cpu invalidate (memRespOf p.2) rst,
   memStep aw p.2 (memReqOf p.1) rst)

/-- Trajectory of the closed system under a constantly held read request at
address `A`, with no invalidate and no reset. -/
def icacheTraj (c : ICacheCfg) (aw A : Nat) (p0 : CacheState × MemState)
    (t : Nat) : CacheState × MemState :=
  (fun p => sysStep c aw p { addr := A, fcn := MemOp.M_RD, valid := true }
    false false)^[t] p0

/-- The construction-time assert chain of `ICache`: all four asserts pass
(`D_WIDTH == 32`, `BLOCK_WIDTH > 0`, `SET_WIDTH > 0`,
`not (WAYS & (WAYS - 1))`), evaluated before anything is built. -/
def icacheAccepts (D_WIDTH BLOCK_WIDTH SET_WIDTH WAYS : Nat) : Bool :=
  decide (D_WIDTH = 32) && decide (0 < BLOCK_WIDTH) && decide (0 < SET_WIDTH) &&
    decide (WAYS &&& (WAYS - 1) = 0)

/-! ### Concrete fixtures used by witnesses and counterexamples -/

/-- A small concrete configuration: 4-byte blocks, 2 sets, 2 ways, 8-bit
addresses. -/
def cfgW : ICacheCfg :=
  { BLOCK_WIDTH := 2, SET_WIDTH := 1, WAYS := 2, LIMIT_WIDTH := 8 }

/-- A concrete cache state: controller idle in CHECK, all tags invalid. -/
def sampleState : CacheState :=
  { state := IcState.CHECK
    valid_q := true
    refill_addr := 0
    refill_valid := false
    flush := false
    flush_addr := 0
    flush_we := false
    tagMem := fun _ => 0
    tagDataO := 0
    dataMem := fun _ _ => 0
    dataO := fun _ => 0 }

/-- Like `sampleState` but with way 0 of every set valid and holding tag 0,
so that address 0 hits. -/
def sampleHitState : CacheState :=
  { state := IcState.CHECK
    valid_q := true
    refill_addr := 0
    refill_valid := false
    flush := false
    flush_addr := 1
    flush_we := false
    tagMem := fun _ => 32
    tagDataO := 32
    dataMem := fun _ _ => 0
    dataO := fun _ => 7 }

/-- A concrete read request at address 0. -/
def cpuRd : CpuIn := { addr := 0, fcn := MemOp.M_RD, valid := true }

/-- An idle memory response. -/
def memIdle : MemResp := { rdata := 0, ready := false, fault := false }

/-! ### Claim C5: miss detection and CHECK transitions -/

/-- Claim C5: in CHECK the controller computes per-way
`missMask[i] = NOT(valid[i] AND tag[i] == requestTag)`, the overall miss as
the AND over all ways gated by operation-is-read, not-flushing and
not-invalidate, and the next state is FLUSH on a pending flush/invalidate,
FETCH on a miss, CHECK otherwise. -/
theorem miss_check_transitions (c : ICacheCfg) (s : CacheState) (cpu : CpuIn)
    (invalidate : Bool) (mem : MemResp) (i : Nat) (hi : i < c.WAYS) :
    ((miss_w c s cpu.addr).testBit i =
      !((tag_out c s i).testBit (TAG_WIDTH c) &&
        decide (tag_out c s i % 2 ^ TAG_WIDTH c = addrTag c cpu.addr))) ∧
    (missSig c s cpu invalidate =
      (miss_w_and c s cpu.addr && decide (cpu.fcn = MemOp.M_RD) && !s.flush &&
        !invalidate)) ∧
    (miss_w_and c s cpu.addr =
      (List.range c.WAYS).all (fun j => (miss_w c s cpu.addr).testBit j)) ∧
    (s.state = IcState.CHECK →
      nextState c s cpu invalidate mem =
        (if s.flush || invalidate then IcState.FLUSH
         else if missSig c s cpu invalidate then IcState.FETCH
         else IcState.CHECK)) := by
  refine ⟨?_, rfl, ?_, ?_⟩
  · rw [miss_w, natOfBits_testBit, List.getD_eq_getElem?_getD, List.getElem?_map,
      List.getElem?_range hi]
    show (!(tag_out c s i).testBit (TAG_WIDTH c) ||
      decide (tag_out c s i % 2 ^ TAG_WIDTH c ≠ addrTag c cpu.addr)) = _
    by_cases h : tag_out c s i % 2 ^ TAG_WIDTH c = addrTag c cpu.addr <;>
      simp [h]
  · rw [miss_w_and, foldl_and_eq, Bool.true_and]
  · intro h
    simp only [nextState, h]

/-- Witness for `miss_check_transitions` on the concrete fixture. -/
theorem miss_check_transitions_witness :
    0 < cfgW.WAYS ∧
    (((miss_w cfgW sampleState cpuRd.addr).testBit 0 =
      !((tag_out cfgW sampleState 0).testBit (TAG_WIDTH cfgW) &&
        decide (tag_out cfgW sampleState 0 % 2 ^ TAG_WIDTH cfgW =
          addrTag cfgW cpuRd.addr))) ∧
    (missSig cfgW sampleState cpuRd false =
      (miss_w_and cfgW sampleState cpuRd.addr &&
        decide (cpuRd.fcn = MemOp.M_RD) && !sampleState.flush && !false)) ∧
    (miss_w_and cfgW sampleState cpuRd.addr =
      (List.range cfgW.WAYS).all
        (fun j => (miss_w cfgW sampleState cpuRd.addr).testBit j)) ∧
    (sampleState.state = IcState.CHECK →
      nextState cfgW sampleState cpuRd false memIdle =
        (if sampleState.flush || false then IcState.FLUSH
         else if missSig cfgW sampleState cpuRd false then IcState.FETCH
         else IcState.CHECK))) :=
  ⟨by decide, miss_check_transitions cfgW sampleState cpuRd false memIdle 0 (by decide)⟩

/-! ### Claim C8: construction-time validation -/

theorem and_pred_shift (m : Nat) (hm : 0 < m) :
    (2 * m) &&& (2 * m - 1) = 2 * (m &&& (m - 1)) := by
  apply Nat.eq_of_testBit_eq
  intro k
  cases k with
  | zero =>
    rw [Nat.testBit_and, Nat.testBit_zero, Nat.testBit_zero, Nat.testBit_zero]
    have h1 : 2 * m % 2 = 0 := by omega
    have h2 : 2 * (m &&& (m - 1)) % 2 = 0 := by omega
    simp [h1, h2]
  | succ k =>
    rw [Nat.testBit_and, Nat.testBit_add_one, Nat.testBit_add_one,
      Nat.testBit_add_one]
    have h1 : 2 * m / 2 = m := by omega
    have h2 : (2 * m - 1) / 2 = m - 1 := by omega
    have h3 : 2 * (m &&& (m - 1)) / 2 = m &&& (m - 1) := by omega
    rw [h1, h2, h3, Nat.testBit_and]

theorem odd_and_pred (m : Nat) : (2 * m + 1) &&& (2 * m) = 2 * m := by
  apply Nat.eq_of_testBit_eq
  intro k
  cases k with
  | zero =>
    rw [Nat.testBit_and, Nat.testBit_zero, Nat.testBit_zero]
    have h1 : 2 * m % 2 = 0 := by omega
    simp [h1]
  | succ k =>
    rw [Nat.testBit_and, Nat.testBit_add_one, Nat.testBit_add_one]
    have h1 : (2 * m + 1) / 2 = m := by omega
    have h2 : 2 * m / 2 = m := by omega
    rw [h1, h2, Bool.and_self]

theorem and_pred_eq_zero_iff (n : Nat) :
    n &&& (n - 1) = 0 ↔ n = 0 ∨ ∃ k, n = 2 ^ k := by
  induction n using Nat.strong_induction_on with
  | _ n ih =>
    by_cases h0 : n = 0
    · subst h0
      simp
    by_cases h1 : n = 1
    · subst h1
      constructor
      · intro _
        exact Or.inr ⟨0, rfl⟩
      · intro _
        rfl
    have h2 : 2 ≤ n := by omega
    rcases Nat.even_or_odd n with he | ho
    · obtain ⟨m, hm⟩ := he
      have hmn : n = 2 * m := by omega
      have hmpos : 0 < m := by omega
      rw [hmn, and_pred_shift m hmpos]
      constructor
      · intro hz
        have hz2 : m &&& (m - 1) = 0 := by omega
        rcases (ih m (by omega)).mp hz2 with hm0 | ⟨k, hk⟩
        · omega
        · exact Or.inr ⟨k + 1, by rw [hk, Nat.pow_succ']⟩
      · rintro (h0v | ⟨k, hk⟩)
        · omega
        · rcases Nat.eq_zero_or_pos k with rfl | hkpos
          · exact absurd (hmn ▸ hk) (by omega)
          · have hk2 : 2 ^ k = 2 * 2 ^ (k - 1) := by
              rw [← Nat.pow_succ']
              congr 1
              omega
            have hm2 : m = 2 ^ (k - 1) := by omega
            have hz : m &&& (m - 1) = 0 :=
              (ih m (by omega)).mpr (Or.inr ⟨k - 1, hm2⟩)
            omega
    · obtain ⟨m, hm⟩ := ho
      have hmpos : 0 < m := by omega
      rw [hm, show 2 * m + 1 - 1 = 2 * m by omega, odd_and_pred]
      constructor
      · intro hz
        omega
      · rintro (h0v | ⟨k, hk⟩)
        · omega
        · exfalso
          rcases Nat.eq_zero_or_pos k with rfl | hkpos
          · simp at hk
            omega
          · have hk2 : 2 ^ k = 2 * 2 ^ (k - 1) := by
              rw [← Nat.pow_succ']
              congr 1
              omega
            omega

/-- Claim C8 counterexample: a single-way configuration passes all four
construction asserts (`1 & 0 == 0`), although the claim requires any
configuration violating "ways a power of two ≥ 2" to be rejected. -/
theorem icache_construction_cex :
    icacheAccepts 32 5 9 1 = true ∧ ¬(2 ≤ 1) :=
  ⟨by decide, by decide⟩

/-- Claim C8 (amended): construction succeeds exactly when `D_WIDTH = 32`,
`BLOCK_WIDTH > 0`, `SET_WIDTH > 0` and `WAYS` is zero or a power of two;
the `WAYS & (WAYS - 1) == 0` assert does not enforce `WAYS ≥ 2` (it also
accepts 0 and 1).  In particular every configuration satisfying the spec's
constraints is accepted, and the asserts run before any construction. -/
theorem icache_construction (D BW SW WAYS : Nat) :
    icacheAccepts D BW SW WAYS = true ↔
      (D = 32 ∧ 0 < BW ∧ 0 < SW ∧ (WAYS = 0 ∨ ∃ k, WAYS = 2 ^ k)) := by
  rw [icacheAccepts]
  simp only [Bool.and_eq_true, decide_eq_true_eq]
  rw [and_pred_eq_zero_iff]
  tauto

/-! ### Projection lemmas for a non-reset clock edge -/

theorem icStep_state (c : ICacheCfg) (s : CacheState) (cpu : CpuIn)
    (inv : Bool) (mem : MemResp) :
    (icStep c s cpu inv mem false).state = nextState c s cpu inv mem := rfl

theorem icStep_valid_q (c : ICacheCfg) (s : CacheState) (cpu : CpuIn)
    (inv : Bool) (mem : MemResp) :
    (icStep c s cpu inv mem false).valid_q = cpu.valid := by
  simp [icStep]

theorem icStep_refill_addr (c : ICacheCfg) (s : CacheState) (cpu : CpuIn)
    (inv : Bool) (mem : MemResp) :
    (icStep c s cpu inv mem false).refill_addr = (fetchNext c s cpu inv mem).1 :=
  rfl

theorem icStep_refill_valid (c : ICacheCfg) (s : CacheState) (cpu : CpuIn)
    (inv : Bool) (mem : MemResp) :
    (icStep c s cpu inv mem false).refill_valid = (fetchNext c s cpu inv mem).2 :=
  rfl

theorem icStep_flush (c : ICacheCfg) (s : CacheState) (cpu : CpuIn)
    (inv : Bool) (mem : MemResp) :
    (icStep c s cpu inv mem false).flush = (flushNext c s inv).1 := rfl

theorem icStep_flush_addr (c : ICacheCfg) (s : CacheState) (cpu : CpuIn)
    (inv : Bool) (mem : MemResp) :
    (icStep c s cpu inv mem false).flush_addr = (flushNext c s inv).2.1 := rfl

theorem icStep_flush_we (c : ICacheCfg) (s : CacheState) (cpu : CpuIn)
    (inv : Bool) (mem : MemResp) :
    (icStep c s cpu inv mem false).flush_we = (flushNext c s inv).2.2 := rfl

theorem icStep_tagMem (c : ICacheCfg) (s : CacheState) (cpu : CpuIn)
    (inv : Bool) (mem : MemResp) :
    (icStep c s cpu inv mem false).tagMem =
      ramWrite (TAGMEM_WIDTH c)
        (ramWrite (TAGMEM_WIDTH c) s.tagMem (tag_we s) (setIndex c cpu.addr)
          (tagWData c s cpu inv))
        s.flush_we s.flush_addr 0 := rfl

theorem icStep_tagDataO (c : ICacheCfg) (s : CacheState) (cpu : CpuIn)
    (inv : Bool) (mem : MemResp) :
    (icStep c s cpu inv mem false).tagDataO = s.tagMem (setIndex c cpu.addr) :=
  rfl

theorem icStep_dataMem (c : ICacheCfg) (s : CacheState) (cpu : CpuIn)
    (inv : Bool) (mem : MemResp) (i : Nat) :
    (icStep c s cpu inv mem false).dataMem i =
      ramWrite 32 (s.dataMem i) ((lru_select c s).testBit i && mem.ready)
        ((s.refill_addr % 2 ^ WAY_WIDTH c) >>> 2) mem.rdata := rfl

theorem icStep_dataO (c : ICacheCfg) (s : CacheState) (cpu : CpuIn)
    (inv : Bool) (mem : MemResp) (i : Nat) :
    (icStep c s cpu inv mem false).dataO i =
      s.dataMem i ((cpu.addr % 2 ^ WAY_WIDTH c) >>> 2) := rfl

/-! ### Claim C4: hit latency -/

theorem miss_w_congr (c : ICacheCfg) (s t : CacheState) (addr : Nat)
    (h : s.tagDataO = t.tagDataO) : miss_w c s addr = miss_w c t addr := by
  rw [miss_w, miss_w]
  congr 1
  apply List.map_congr_left
  intro i _
  rw [tag_out, tag_out, h]

theorem miss_w_and_congr (c : ICacheCfg) (s t : CacheState) (addr : Nat)
    (h : s.tagDataO = t.tagDataO) :
    miss_w_and c s addr = miss_w_and c t addr := by
  rw [miss_w_and, miss_w_and, miss_w_congr c s t addr h]

/-- Claim C4 counterexample: an idle CHECK state with a registered valid
request, a resident line and a non-read operation — the code holds
`cpu.ready = 0` while the claimed combinational formula
`valid_q AND NOT overall-miss AND NOT busy` gives 1 (the claim drops the
read-operation gate and uses the flush/invalidate-gated `miss` instead of
the raw all-ways miss). -/
theorem hit_latency_cex :
    cpuReady cfgW sampleHitState { addr := 0, fcn := MemOp.M_WR, valid := true } =
      false ∧
    (sampleHitState.valid_q &&
      !missSig cfgW sampleHitState { addr := 0, fcn := MemOp.M_WR, valid := true }
          false &&
      !busy sampleHitState) = true :=
  ⟨by decide, by decide⟩

/-- Claim C4 (amended): `cpu.ready` is combinationally
`valid_q AND NOT miss_w_and AND NOT busy AND (operation is a read)`, where
`valid_q` registers `cpu.valid` of the previous cycle; hence a read request
to a resident address (with the set's tags registered in `tagDataO`)
completes with `ready` exactly one cycle after `valid` when no miss, flush
or invalidate intervenes — independent of the number of ways and sets. -/
theorem hit_latency (c : ICacheCfg) (s : CacheState) (cpu : CpuIn)
    (invalidate : Bool) (mem : MemResp) :
    (cpuReady c s cpu =
      (s.valid_q && !miss_w_and c s cpu.addr && !busy s &&
        decide (cpu.fcn = MemOp.M_RD))) ∧
    ((icStep c s cpu invalidate mem false).valid_q = cpu.valid) ∧
    (s.state = IcState.CHECK → s.flush = false → invalidate = false →
      cpu.fcn = MemOp.M_RD → cpu.valid = true →
      miss_w_and c s cpu.addr = false →
      s.tagDataO = s.tagMem (setIndex c cpu.addr) →
      cpuReady c (icStep c s cpu invalidate mem false) cpu = true) := by
  refine ⟨?_, icStep_valid_q c s cpu invalidate mem, ?_⟩
  · rw [cpuReady, cpuReadyComb]
    cases hb : busy s <;> cases hv : s.valid_q <;>
      cases hm : miss_w_and c s cpu.addr <;> rcases cpu.fcn <;> simp
  · intro hst hfl hinv hf hv hmwa htago
    subst hinv
    have hmiss : missSig c s cpu false = false := by
      rw [missSig, hmwa]
      rfl
    have hns : nextState c s cpu false mem = IcState.CHECK := by
      simp only [nextState, hst, hfl, hmiss, Bool.or_self, Bool.false_eq_true,
        if_false]
    have htago2 : (icStep c s cpu false mem false).tagDataO = s.tagDataO := by
      rw [icStep_tagDataO, ← htago]
    have hmwa2 : miss_w_and c (icStep c s cpu false mem false) cpu.addr =
        false := by
      rw [miss_w_and_congr c _ s cpu.addr htago2, hmwa]
    rw [cpuReady, cpuReadyComb]
    have hb : busy (icStep c s cpu false mem false) = false := by
      rw [busy, icStep_state, hns]
      simp
    rw [hb, hmwa2, hf, icStep_valid_q, hv]
    simp

/-- Witness for `hit_latency` on the concrete hit fixture. -/
theorem hit_latency_witness :
    sampleHitState.state = IcState.CHECK ∧
      miss_w_and cfgW sampleHitState cpuRd.addr = false ∧
      cpuReady cfgW (icStep cfgW sampleHitState cpuRd false memIdle false) cpuRd =
        true :=
  ⟨rfl, by decide,
    (hit_latency cfgW sampleHitState cpuRd false memIdle).2.2 rfl rfl rfl rfl rfl
      (by decide) rfl⟩

/-! ### Claim C9: continuous re-flush under a held invalidate -/

/-- A concrete state at the last cycle of a flush sweep. -/
def sampleFlushLast : CacheState :=
  { state := IcState.FLUSH_LAST
    valid_q := false
    refill_addr := 0
    refill_valid := false
    flush := false
    flush_addr := 0
    flush_we := false
    tagMem := fun _ => 0
    tagDataO := 0
    dataMem := fun _ _ => 0
    dataO := fun _ => 0 }

/-- A concrete state in WAIT. -/
def sampleWait : CacheState :=
  { state := IcState.WAIT
    valid_q := false
    refill_addr := 0
    refill_valid := false
    flush := false
    flush_addr := 0
    flush_we := false
    tagMem := fun _ => 0
    tagDataO := 0
    dataMem := fun _ _ => 0
    dataO := fun _ => 0 }

/-- Claim C9 counterexample: the `FLUSH_LAST` branch of the flush
next-state logic does not sample the invalidate level — its outputs with
invalidate high and low coincide and the pulse register stays clear — while
the `WAIT` (default) branch is where the level is latched. -/
theorem flush_reflush_cex :
    flushNext cfgW sampleFlushLast true = flushNext cfgW sampleFlushLast false ∧
      (flushNext cfgW sampleFlushLast true).1 = false ∧
      (flushNext cfgW sampleWait true).1 = true :=
  ⟨by decide, by decide, by decide⟩

/-- Claim C9 (amended): flush is a self-clearing pulse-triggered sweep, and
a level-held invalidate forces the controller back into FLUSH at the end of
every sweep — but the level is sampled on the WAIT/FETCH (default) branch
of the flush logic and directly in CHECK, not on the FLUSH_LAST branch:
from FLUSH_LAST with invalidate held the controller reaches WAIT (latching
`flush := invalidate`), then CHECK, and is back in FLUSH three cycles
later with the pulse cleared again; `cpu.ready` stays deasserted in the
FLUSH_LAST and WAIT cycles. -/
theorem flush_reflush (c : ICacheCfg) (s : CacheState) (cpu : CpuIn)
    (m1 m2 m3 : MemResp) (hst : s.state = IcState.FLUSH_LAST) :
    (icStep c s cpu true m1 false).state = IcState.WAIT ∧
    (icStep c (icStep c s cpu true m1 false) cpu true m2 false).state =
      IcState.CHECK ∧
    (icStep c (icStep c s cpu true m1 false) cpu true m2 false).flush = true ∧
    (icStep c (icStep c (icStep c s cpu true m1 false) cpu true m2 false) cpu
        true m3 false).state = IcState.FLUSH ∧
    (icStep c (icStep c (icStep c s cpu true m1 false) cpu true m2 false) cpu
        true m3 false).flush = false ∧
    cpuReady c s cpu = false ∧
    cpuReady c (icStep c s cpu true m1 false) cpu = false := by
  have h1s : (icStep c s cpu true m1 false).state = IcState.WAIT := by
    rw [icStep_state]
    simp only [nextState, hst]
  have h2s : (icStep c (icStep c s cpu true m1 false) cpu true m2 false).state =
      IcState.CHECK := by
    rw [icStep_state]
    simp only [nextState, h1s]
  have h2f : (icStep c (icStep c s cpu true m1 false) cpu true m2 false).flush =
      true := by
    rw [icStep_flush]
    simp only [flushNext, h1s]
  have h3s : (icStep c (icStep c (icStep c s cpu true m1 false) cpu true m2
      false) cpu true m3 false).state = IcState.FLUSH := by
    rw [icStep_state]
    simp only [nextState, h2s, h2f, Bool.true_or, if_true]
  have h3f : (icStep c (icStep c (icStep c s cpu true m1 false) cpu true m2
      false) cpu true m3 false).flush = false := by
    rw [icStep_flush]
    simp only [flushNext, h2s, h2f, Bool.true_or, if_true]
  have hr0 : cpuReady c s cpu = false := by
    rw [cpuReady, cpuReadyComb, busy, hst]
    simp
  have hr1 : cpuReady c (icStep c s cpu true m1 false) cpu = false := by
    rw [cpuReady, cpuReadyComb, busy, h1s]
    simp
  exact ⟨h1s, h2s, h2f, h3s, h3f, hr0, hr1⟩

/-- Witness for `flush_reflush` on the concrete FLUSH_LAST fixture. -/
theorem flush_reflush_witness :
    sampleFlushLast.state = IcState.FLUSH_LAST ∧
      (icStep cfgW (icStep cfgW (icStep cfgW sampleFlushLast cpuRd true memIdle
          false) cpuRd true memIdle false) cpuRd true memIdle false).state =
        IcState.FLUSH :=
  ⟨rfl,
    (flush_reflush cfgW sampleFlushLast cpuRd memIdle memIdle memIdle rfl).2.2.2.1⟩

/-! ### Packing arithmetic for the tag-RAM write word -/

theorem packChunks_lt (w : Nat) (l : List Nat) :
    packChunks w l < 2 ^ (w * l.length) := by
  induction l with
  | nil => simp [packChunks]
  | cons x xs ih =>
    rw [packChunks, List.length_cons, Nat.mul_succ, pow_add]
    have hx : x % 2 ^ w < 2 ^ w := Nat.mod_lt _ (Nat.two_pow_pos w)
    calc x % 2 ^ w + 2 ^ w * packChunks w xs
        < 2 ^ w + 2 ^ w * packChunks w xs := Nat.add_lt_add_right hx _
      _ = 2 ^ w * (packChunks w xs + 1) := by ring
      _ ≤ 2 ^ w * 2 ^ (w * xs.length) := Nat.mul_le_mul_left _ ih
      _ = 2 ^ (w * xs.length) * 2 ^ w := Nat.mul_comm _ _

theorem packChunks_chunk (w : Nat) (l : List Nat) (i : Nat) (hi : i < l.length) :
    (packChunks w l >>> (w * i)) % 2 ^ w = l.getD i 0 % 2 ^ w := by
  induction l generalizing i with
  | nil => simp at hi
  | cons x xs ih =>
    cases i with
    | zero =>
      rw [packChunks, Nat.mul_zero, Nat.shiftRight_zero, Nat.add_mul_mod_self_left,
        List.getD_cons_zero]
      exact Nat.mod_mod_of_dvd x dvd_rfl
    | succ i =>
      have hX : (x % 2 ^ w + 2 ^ w * packChunks w xs) >>> w = packChunks w xs := by
        rw [Nat.shiftRight_eq_div_pow,
          Nat.add_mul_div_left _ _ (Nat.two_pow_pos w),
          Nat.div_eq_of_lt (Nat.mod_lt _ (Nat.two_pow_pos w)), Nat.zero_add]
      rw [packChunks, List.getD_cons_succ, Nat.mul_succ, Nat.add_comm (w * i) w,
        Nat.shiftRight_add, hX]
      exact ih i (by simpa using hi)

theorem chunk_add_high (w i W X L : Nat) (hiW : i < W) :
    ((X + 2 ^ (w * W) * L) >>> (w * i)) % 2 ^ w = (X >>> (w * i)) % 2 ^ w := by
  have hsplit : (2 : Nat) ^ (w * W) = 2 ^ (w * i) * 2 ^ (w * (W - i)) := by
    rw [← pow_add]
    congr 1
    rw [← Nat.mul_add]
    congr 1
    omega
  have hexp : w * (W - i) = w + w * (W - i - 1) := by
    conv_lhs => rw [show W - i = 1 + (W - i - 1) by omega]
    rw [Nat.mul_add, Nat.mul_one]
  have hfac : (2 : Nat) ^ (w * (W - i)) * L =
      2 ^ w * (2 ^ (w * (W - i - 1)) * L) := by
    rw [hexp, pow_add, Nat.mul_assoc]
  rw [Nat.shiftRight_eq_div_pow, Nat.shiftRight_eq_div_pow, hsplit, Nat.mul_assoc,
    Nat.add_mul_div_left _ _ (Nat.two_pow_pos (w * i)), hfac,
    Nat.add_mul_mod_self_left]

theorem shift_high_field (w W X L T : Nat) (hX : X < 2 ^ (w * W)) :
    ((X + 2 ^ (w * W) * L) >>> (w * W)) % 2 ^ T = L % 2 ^ T := by
  rw [Nat.shiftRight_eq_div_pow, Nat.add_mul_div_left _ _ (Nat.two_pow_pos _),
    Nat.div_eq_of_lt hX, Nat.zero_add]

theorem packChunks_tags_lt (c : ICacheCfg) (s : CacheState) (cpu : CpuIn)
    (inv : Bool) :
    packChunks (TAGMEM_WAY_WIDTH c) ((List.range c.WAYS).map (tag_in c s cpu inv)) <
      2 ^ (TAGMEM_WAY_WIDTH c * c.WAYS) := by
  have h := packChunks_lt (TAGMEM_WAY_WIDTH c)
    ((List.range c.WAYS).map (tag_in c s cpu inv))
  simpa using h

theorem tagWData_lt (c : ICacheCfg) (s : CacheState) (cpu : CpuIn) (inv : Bool) :
    tagWData c s cpu inv < 2 ^ TAGMEM_WIDTH c := by
  rw [tagWData, TAGMEM_WIDTH, pow_add]
  have h1 := packChunks_tags_lt c s cpu inv
  have h2 : lru_in c s cpu inv % 2 ^ TAG_LRU_WIDTH c < 2 ^ TAG_LRU_WIDTH c :=
    Nat.mod_lt _ (Nat.two_pow_pos _)
  calc packChunks (TAGMEM_WAY_WIDTH c) ((List.range c.WAYS).map (tag_in c s cpu inv)) +
        2 ^ (TAGMEM_WAY_WIDTH c * c.WAYS) *
          (lru_in c s cpu inv % 2 ^ TAG_LRU_WIDTH c)
      < 2 ^ (TAGMEM_WAY_WIDTH c * c.WAYS) +
          2 ^ (TAGMEM_WAY_WIDTH c * c.WAYS) *
            (lru_in c s cpu inv % 2 ^ TAG_LRU_WIDTH c) :=
        Nat.add_lt_add_right h1 _
    _ = 2 ^ (TAGMEM_WAY_WIDTH c * c.WAYS) *
          (lru_in c s cpu inv % 2 ^ TAG_LRU_WIDTH c + 1) := by ring
    _ ≤ 2 ^ (TAGMEM_WAY_WIDTH c * c.WAYS) * 2 ^ TAG_LRU_WIDTH c :=
        Nat.mul_le_mul_left _ h2

theorem tagWData_chunk (c : ICacheCfg) (s : CacheState) (cpu : CpuIn)
    (inv : Bool) (i : Nat) (hi : i < c.WAYS) :
    (tagWData c s cpu inv >>> (TAGMEM_WAY_WIDTH c * i)) %
        2 ^ TAGMEM_WAY_WIDTH c =
      tag_in c s cpu inv i % 2 ^ TAGMEM_WAY_WIDTH c := by
  rw [tagWData, chunk_add_high _ i c.WAYS _ _ hi,
    packChunks_chunk _ _ i (by simpa using hi), map_range_getD, if_pos hi]

theorem tagWData_lruField (c : ICacheCfg) (s : CacheState) (cpu : CpuIn)
    (inv : Bool) :
    (tagWData c s cpu inv >>> (TAGMEM_WAY_WIDTH c * c.WAYS)) %
        2 ^ TAG_LRU_WIDTH c =
      lru_in c s cpu inv % 2 ^ TAG_LRU_WIDTH c := by
  rw [tagWData, shift_high_field _ _ _ _ _ (packChunks_tags_lt c s cpu inv)]
  exact Nat.mod_mod_of_dvd _ dvd_rfl

theorem tag_out_lt (c : ICacheCfg) (s : CacheState) (i : Nat) :
    tag_out c s i < 2 ^ TAGMEM_WAY_WIDTH c :=
  Nat.mod_lt _ (Nat.two_pow_pos _)

theorem addrTag_lt (c : ICacheCfg) (a : Nat) : addrTag c a < 2 ^ TAG_WIDTH c :=
  Nat.mod_lt _ (Nat.two_pow_pos _)

theorem victim_entry_lt (c : ICacheCfg) (a : Nat) :
    2 ^ TAG_WIDTH c + addrTag c a < 2 ^ TAGMEM_WAY_WIDTH c := by
  have h := addrTag_lt c a
  rw [TAGMEM_WAY_WIDTH, pow_succ]
  omega

/-! ### Claim C7: tag-entry mutation discipline -/

/-- The tag word written in state CHECK with the flush port idle. -/
theorem tagMem_write_check (c : ICacheCfg) (s : CacheState) (cpu : CpuIn)
    (inv : Bool) (mem : MemResp) (hst : s.state = IcState.CHECK)
    (hfw : s.flush_we = false) :
    (icStep c s cpu inv mem false).tagMem (setIndex c cpu.addr) =
      tagWData c s cpu inv := by
  rw [icStep_tagMem, ramWrite, ramWrite, hfw]
  have htw : tag_we s = true := by
    rw [tag_we, hst]
    rfl
  rw [htw]
  simp only [Bool.false_eq_true, if_false, if_true]
  rw [Function.update_same]
  exact Nat.mod_eq_of_lt (tagWData_lt c s cpu inv)

/-- Claim C7 counterexample: in CHECK with a miss just detected and no
refill in flight (`refill_valid = 0`, the refill starts only next cycle),
the controller already mutates the victim way's tag entry, setting its
valid bit — tag entries are written at refill start (miss acceptance), not
on refill completion as the claim states. -/
theorem tag_mutation_cex :
    sampleState.state = IcState.CHECK ∧ sampleState.refill_valid = false ∧
      missSig cfgW sampleState cpuRd false = true ∧
      (icStep cfgW sampleState cpuRd false memIdle false).tagMem 0 ≠
        sampleState.tagMem 0 ∧
      ((icStep cfgW sampleState cpuRd false memIdle false).tagMem 0).testBit 11 =
        true ∧
      (sampleState.tagMem 0).testBit 11 = false :=
  ⟨rfl, rfl, by decide, by decide, by decide, by decide⟩

/-- Claim C7 (amended): tag mutation discipline.  (1) A tag-RAM word
changes only through the flush port (at `flush_addr` under `flush_we`) or
through the controller's port, which writes only in state CHECK and only at
the requested set.  (2) The flush port writes the whole word to zero, so
every way's `{valid, tag}` is zeroed en masse (the valid bits are cleared
only this way).  (3) On a served hit or idle CHECK cycle (no miss) the
written word keeps every way's `{valid, tag}` slice unchanged and stores
the updated LRU history word — only the set's history changes.  (4) On a
miss the victim ways get `{valid = 1, tag = requestTag}` set together —
already in CHECK when the miss is accepted (refill start), not on refill
completion — and the other ways are written back unchanged. -/
theorem tag_mutation (c : ICacheCfg) (s : CacheState) (cpu : CpuIn)
    (inv : Bool) (mem : MemResp) :
    (∀ idx, (icStep c s cpu inv mem false).tagMem idx ≠ s.tagMem idx →
      (s.flush_we = true ∧ idx = s.flush_addr) ∨
        (s.state = IcState.CHECK ∧ idx = setIndex c cpu.addr)) ∧
    (s.flush_we = true →
      (icStep c s cpu inv mem false).tagMem s.flush_addr = 0) ∧
    (s.state = IcState.CHECK → s.flush_we = false →
      (missSig c s cpu inv = false →
        (∀ i, i < c.WAYS →
          ((icStep c s cpu inv mem false).tagMem (setIndex c cpu.addr) >>>
              (TAGMEM_WAY_WIDTH c * i)) % 2 ^ TAGMEM_WAY_WIDTH c =
            tag_out c s i) ∧
        ((icStep c s cpu inv mem false).tagMem (setIndex c cpu.addr) >>>
            (TAGMEM_WAY_WIDTH c * c.WAYS)) % 2 ^ TAG_LRU_WIDTH c =
          update_lru c s cpu.addr % 2 ^ TAG_LRU_WIDTH c) ∧
      (missSig c s cpu inv = true →
        ∀ i, i < c.WAYS →
          ((icStep c s cpu inv mem false).tagMem (setIndex c cpu.addr) >>>
              (TAGMEM_WAY_WIDTH c * i)) % 2 ^ TAGMEM_WAY_WIDTH c =
            (if (lru_select c s).testBit i then
              2 ^ TAG_WIDTH c + addrTag c cpu.addr
             else tag_out c s i))) := by
  refine ⟨?_, ?_, ?_⟩
  · intro idx hne
    rw [icStep_tagMem, ramWrite, ramWrite] at hne
    by_cases hfw : s.flush_we = true
    · by_cases hidx : idx = s.flush_addr
      · exact Or.inl ⟨hfw, hidx⟩
      · rw [hfw, if_pos rfl, Function.update_noteq hidx] at hne
        by_cases htw : tag_we s = true
        · by_cases hidx2 : idx = setIndex c cpu.addr
          · exact Or.inr ⟨by rwa [tag_we, decide_eq_true_eq] at htw, hidx2⟩
          · rw [htw, if_pos rfl, Function.update_noteq hidx2] at hne
            exact absurd rfl hne
        · rw [if_neg htw] at hne
          exact absurd rfl hne
    · rw [if_neg hfw] at hne
      by_cases htw : tag_we s = true
      · by_cases hidx2 : idx = setIndex c cpu.addr
        · exact Or.inr ⟨by rwa [tag_we, decide_eq_true_eq] at htw, hidx2⟩
        · rw [htw, if_pos rfl, Function.update_noteq hidx2] at hne
          exact absurd rfl hne
      · rw [if_neg htw] at hne
        exact absurd rfl hne
  · intro hfw
    rw [icStep_tagMem, ramWrite, ramWrite, hfw, if_pos rfl, Function.update_same]
    simp
  · intro hst hfw
    have hmem := tagMem_write_check c s cpu inv mem hst hfw
    constructor
    · intro hmiss
      constructor
      · intro i hi
        rw [hmem, tagWData_chunk c s cpu inv i hi, tag_in, if_neg (by
          rintro ⟨_, hm, _⟩
          rw [hmiss] at hm
          exact absurd hm (by simp))]
        exact Nat.mod_eq_of_lt (tag_out_lt c s i)
      · rw [hmem, tagWData_lruField, lru_in, if_pos ⟨hst, hmiss⟩]
    · intro hmiss i hi
      rw [hmem, tagWData_chunk c s cpu inv i hi, tag_in]
      by_cases hsel : (lru_select c s).testBit i = true
      · rw [if_pos ⟨hst, hmiss, hsel⟩, if_pos hsel]
        exact Nat.mod_eq_of_lt (victim_entry_lt c cpu.addr)
      · rw [if_neg (by rintro ⟨_, _, hs⟩; exact hsel hs), if_neg hsel]
        exact Nat.mod_eq_of_lt (tag_out_lt c s i)

/-! ### Claim C6: refill arithmetic and step helpers -/

/-- The refill base loaded by `fetch_fsm` on an accepted miss:
`concat(cpu.addr[LIMIT_WIDTH:BLOCK_WIDTH], modbv(0)[BLOCK_WIDTH:])`. -/
def alignedBase (c : ICacheCfg) (A : Nat) : Nat :=
  ((A >>> c.BLOCK_WIDTH) % 2 ^ (c.LIMIT_WIDTH - c.BLOCK_WIDTH)) <<< c.BLOCK_WIDTH

theorem alignedBase_eq_mul (c : ICacheCfg) (A : Nat) :
    alignedBase c A =
      ((A >>> c.BLOCK_WIDTH) % 2 ^ (c.LIMIT_WIDTH - c.BLOCK_WIDTH)) *
        2 ^ c.BLOCK_WIDTH :=
  Nat.shiftLeft_eq _ _

theorem alignedBase_spec (c : ICacheCfg) (A : Nat)
    (hA : A < 2 ^ c.LIMIT_WIDTH) (hBL : c.BLOCK_WIDTH ≤ c.LIMIT_WIDTH) :
    alignedBase c A = A - A % 2 ^ c.BLOCK_WIDTH := by
  rw [alignedBase_eq_mul, Nat.shiftRight_eq_div_pow]
  have hdiv : A / 2 ^ c.BLOCK_WIDTH < 2 ^ (c.LIMIT_WIDTH - c.BLOCK_WIDTH) := by
    apply Nat.div_lt_of_lt_mul
    calc A < 2 ^ c.LIMIT_WIDTH := hA
      _ = 2 ^ c.BLOCK_WIDTH * 2 ^ (c.LIMIT_WIDTH - c.BLOCK_WIDTH) := by
          rw [← pow_add]
          congr 1
          omega
  rw [Nat.mod_eq_of_lt hdiv]
  have hdm := Nat.div_add_mod A (2 ^ c.BLOCK_WIDTH)
  have hcomm : A / 2 ^ c.BLOCK_WIDTH * 2 ^ c.BLOCK_WIDTH =
      2 ^ c.BLOCK_WIDTH * (A / 2 ^ c.BLOCK_WIDTH) := Nat.mul_comm _ _
  omega

theorem two_pow_bw_eq (BW : Nat) (h : 2 ≤ BW) : 2 ^ BW = 4 * 2 ^ (BW - 2) := by
  conv_lhs => rw [show BW = 2 + (BW - 2) by omega]
  rw [pow_add]
  norm_num

theorem alignedBase_add_lt (c : ICacheCfg) (A x : Nat)
    (hx : x < 2 ^ c.BLOCK_WIDTH) (hBL : c.BLOCK_WIDTH ≤ c.LIMIT_WIDTH) :
    alignedBase c A + x < 2 ^ c.LIMIT_WIDTH := by
  rw [alignedBase_eq_mul]
  have hq : (A >>> c.BLOCK_WIDTH) % 2 ^ (c.LIMIT_WIDTH - c.BLOCK_WIDTH) <
      2 ^ (c.LIMIT_WIDTH - c.BLOCK_WIDTH) := Nat.mod_lt _ (Nat.two_pow_pos _)
  have hsplit : (2 : Nat) ^ c.LIMIT_WIDTH =
      2 ^ (c.LIMIT_WIDTH - c.BLOCK_WIDTH) * 2 ^ c.BLOCK_WIDTH := by
    rw [← pow_add]
    congr 1
    omega
  calc (A >>> c.BLOCK_WIDTH) % 2 ^ (c.LIMIT_WIDTH - c.BLOCK_WIDTH) *
        2 ^ c.BLOCK_WIDTH + x
      < ((A >>> c.BLOCK_WIDTH) % 2 ^ (c.LIMIT_WIDTH - c.BLOCK_WIDTH) + 1) *
          2 ^ c.BLOCK_WIDTH := by
        rw [Nat.add_mul, Nat.one_mul]
        omega
    _ ≤ 2 ^ (c.LIMIT_WIDTH - c.BLOCK_WIDTH) * 2 ^ c.BLOCK_WIDTH :=
        Nat.mul_le_mul_right _ hq
    _ = 2 ^ c.LIMIT_WIDTH := hsplit.symm

theorem alignedBase_block_offset (c : ICacheCfg) (A j : Nat)
    (hj : 4 * j < 2 ^ c.BLOCK_WIDTH) :
    (alignedBase c A + 4 * j) % 2 ^ c.BLOCK_WIDTH = 4 * j := by
  rw [alignedBase_eq_mul]
  conv_lhs =>
    rw [Nat.mul_comm ((A >>> c.BLOCK_WIDTH) % 2 ^ (c.LIMIT_WIDTH - c.BLOCK_WIDTH))
      (2 ^ c.BLOCK_WIDTH)]
  rw [Nat.mul_add_mod, Nat.mod_eq_of_lt hj]

theorem lastWordOffset_eq (c : ICacheCfg) (h : 2 ≤ c.BLOCK_WIDTH) :
    lastWordOffset c = 4 * (2 ^ (c.BLOCK_WIDTH - 2) - 1) := by
  rw [lastWordOffset, two_pow_bw_eq _ h]
  have hN1 : 1 ≤ 2 ^ (c.BLOCK_WIDTH - 2) := Nat.one_le_two_pow
  by_cases h1 : 2 ^ (c.BLOCK_WIDTH - 2) = 1
  · rw [h1]
  · have h4 : 4 < 4 * 2 ^ (c.BLOCK_WIDTH - 2) := by omega
    rw [Nat.mod_eq_of_lt h4, Nat.mod_eq_of_lt (by omega)]
    omega

theorem dvd_alignedBase_mod_ww (c : ICacheCfg) (A : Nat) :
    2 ^ c.BLOCK_WIDTH ∣ alignedBase c A % 2 ^ WAY_WIDTH c := by
  rw [Nat.dvd_mod_iff (pow_dvd_pow 2 (by rw [WAY_WIDTH]; omega)),
    alignedBase_eq_mul]
  exact dvd_mul_left _ _

theorem refill_word_addr (c : ICacheCfg) (A j : Nat)
    (hBW : 2 ≤ c.BLOCK_WIDTH) (hj : 4 * j < 2 ^ c.BLOCK_WIDTH) :
    ((alignedBase c A + 4 * j) % 2 ^ WAY_WIDTH c) >>> 2 =
      (alignedBase c A % 2 ^ WAY_WIDTH c) >>> 2 + j := by
  obtain ⟨t, ht⟩ := dvd_alignedBase_mod_ww c A
  have hbb : 2 ^ c.BLOCK_WIDTH ∣ 2 ^ WAY_WIDTH c :=
    pow_dvd_pow 2 (by rw [WAY_WIDTH]; omega)
  obtain ⟨u, hu⟩ := hbb
  have hmodlt : alignedBase c A % 2 ^ WAY_WIDTH c < 2 ^ WAY_WIDTH c :=
    Nat.mod_lt _ (Nat.two_pow_pos _)
  have htu : t < u := by
    by_contra hc
    push_neg at hc
    have : 2 ^ c.BLOCK_WIDTH * u ≤ 2 ^ c.BLOCK_WIDTH * t :=
      Nat.mul_le_mul_left _ hc
    omega
  have hsum : alignedBase c A % 2 ^ WAY_WIDTH c + 4 * j < 2 ^ WAY_WIDTH c := by
    have h1 : 2 ^ c.BLOCK_WIDTH * (t + 1) ≤ 2 ^ c.BLOCK_WIDTH * u :=
      Nat.mul_le_mul_left _ htu
    rw [Nat.mul_add, Nat.mul_one] at h1
    omega
  have hmod : (alignedBase c A + 4 * j) % 2 ^ WAY_WIDTH c =
      alignedBase c A % 2 ^ WAY_WIDTH c + 4 * j := by
    rw [Nat.add_mod, Nat.mod_eq_of_lt (show 4 * j < 2 ^ WAY_WIDTH c by omega),
      Nat.mod_eq_of_lt hsum]
  rw [hmod, Nat.shiftRight_eq_div_pow, Nat.shiftRight_eq_div_pow]
  have h4 : (2 : Nat) ^ 2 = 4 := by norm_num
  rw [h4]
  have hdvd4 : (4 : Nat) ∣ alignedBase c A % 2 ^ WAY_WIDTH c := by
    have h44 : (4 : Nat) ∣ 2 ^ c.BLOCK_WIDTH := by
      have h2 : (2 : Nat) ^ 2 ∣ 2 ^ c.BLOCK_WIDTH := pow_dvd_pow 2 hBW
      simpa using h2
    rw [ht]
    exact dvd_mul_of_dvd_left h44 t
  obtain ⟨q, hq⟩ := hdvd4
  rw [hq, show 4 * q + 4 * j = 4 * (q + j) by ring, Nat.mul_div_cancel_left _ (by omega),
    Nat.mul_div_cancel_left _ (by omega : (0:Nat) < 4)]

/-- Projections of the memory response and request wiring. -/
theorem memRespOf_ready (m : MemState) : (memRespOf m).ready = m.ready := rfl

theorem memRespOf_rdata (m : MemState) : (memRespOf m).rdata = memRData m := rfl

theorem memReqOf_valid (s : CacheState) : (memReqOf s).valid = s.refill_valid :=
  rfl

theorem memReqOf_addr (s : CacheState) : (memReqOf s).addr = s.refill_addr := rfl

theorem sysStep_fst (c : ICacheCfg) (aw : Nat) (p : CacheState × MemState)
    (cpu : CpuIn) (inv rst : Bool) :
    (sysStep c aw p cpu inv rst).1 = icStep c p.1 cpu inv (memRespOf p.2) rst :=
  rfl

theorem sysStep_snd (c : ICacheCfg) (aw : Nat) (p : CacheState × MemState)
    (cpu : CpuIn) (inv rst : Bool) :
    (sysStep c aw p cpu inv rst).2 = memStep aw p.2 (memReqOf p.1) rst := rfl

theorem memStep_ready (aw : Nat) (m : MemState) (req : MemReq) :
    (memStep aw m req false).ready = req.valid := by
  simp [memStep]

theorem memStep_mem_rd (aw : Nat) (m : MemState) (req : MemReq)
    (h : req.fcn = MemOp.M_RD) : (memStep aw m req false).mem = m.mem := by
  simp [memStep, h]

theorem memStep_i_data_o_rd (aw : Nat) (m : MemState) (req : MemReq)
    (h : req.fcn = MemOp.M_RD) :
    (memStep aw m req false).i_data_o =
      m.mem (memWordAddr aw req.addr) % 2 ^ 32 := by
  simp [memStep, h]

theorem icacheTraj_succ (c : ICacheCfg) (aw A : Nat) (p0 : CacheState × MemState)
    (t : Nat) :
    icacheTraj c aw A p0 (t + 1) =
      sysStep c aw (icacheTraj c aw A p0 t)
        { addr := A, fcn := MemOp.M_RD, valid := true } false false := by
  rw [icacheTraj, icacheTraj, Function.iterate_succ_apply']

theorem icacheTraj_zero (c : ICacheCfg) (aw A : Nat)
    (p0 : CacheState × MemState) : icacheTraj c aw A p0 0 = p0 := rfl

theorem final_fetch_of_ready_false (c : ICacheCfg) (s : CacheState)
    (m : MemResp) (h : m.ready = false) : final_fetch c s m = false := by
  rw [final_fetch, h]
  simp

theorem final_fetch_of_rv_true (c : ICacheCfg) (s : CacheState) (m : MemResp)
    (h : s.refill_valid = true) : final_fetch c s m = false := by
  rw [final_fetch, h]
  simp

theorem icStep_tagMem_frame (c : ICacheCfg) (s : CacheState) (cpu : CpuIn)
    (inv : Bool) (mem : MemResp) (hst : s.state ≠ IcState.CHECK)
    (hfw : s.flush_we = false) :
    (icStep c s cpu inv mem false).tagMem = s.tagMem := by
  rw [icStep_tagMem, ramWrite, ramWrite, hfw, tag_we]
  simp [hst]

theorem icStep_dataMem_frame (c : ICacheCfg) (s : CacheState) (cpu : CpuIn)
    (inv : Bool) (mem : MemResp) (h : mem.ready = false) :
    (icStep c s cpu inv mem false).dataMem = s.dataMem := by
  funext i
  rw [icStep_dataMem, ramWrite, h]
  simp

/-- The tag memory contents after the miss-acceptance write in CHECK. -/
def tagMemAfterMiss (c : ICacheCfg) (A : Nat) (s0 : CacheState) : Nat → Nat :=
  Function.update s0.tagMem (setIndex c A)
    (tagWData c s0 { addr := A, fcn := MemOp.M_RD, valid := true } false)

/-- Data-array contents after the first `j` beats of a refill: the ways
selected by the eviction mask at miss time hold the fetched words in
address order, and every other entry is untouched. -/
def RefillData (c : ICacheCfg) (aw A : Nat) (s0 : CacheState) (m0 : MemState)
    (j : Nat) (s : CacheState) : Prop :=
  (∀ i k, (lru_select c s0).testBit i = true → k < j →
    s.dataMem i ((alignedBase c A % 2 ^ WAY_WIDTH c) >>> 2 + k) =
      m0.mem (memWordAddr aw (alignedBase c A + 4 * k)) % 2 ^ 32) ∧
  (∀ i w, ((lru_select c s0).testBit i = false ∨
      ∀ k, k < j → w ≠ (alignedBase c A % 2 ^ WAY_WIDTH c) >>> 2 + k) →
    s.dataMem i w = s0.dataMem i w)

/-- Invariant pieces common to every cycle of the refill. -/
def RefillCore (c : ICacheCfg) (A : Nat) (s0 : CacheState) (m0 : MemState)
    (p : CacheState × MemState) : Prop :=
  p.1.flush = false ∧ p.1.flush_we = false ∧ p.1.valid_q = true ∧
  p.1.tagMem = tagMemAfterMiss c A s0 ∧ p.2.mem = m0.mem

/-- Start of beat `j` (cycle `1 + 4j`): request up, memory ready low. -/
def BeatA (c : ICacheCfg) (aw A : Nat) (s0 : CacheState) (m0 : MemState)
    (j : Nat) (p : CacheState × MemState) : Prop :=
  p.1.state = IcState.FETCH ∧ p.1.refill_addr = alignedBase c A + 4 * j ∧
  p.1.refill_valid = true ∧ p.2.ready = false ∧
  RefillCore c A s0 m0 p ∧ RefillData c aw A s0 m0 j p.1

/-- Handshake cycle of beat `j` (cycle `2 + 4j`): valid and ready high. -/
def BeatB (c : ICacheCfg) (aw A : Nat) (s0 : CacheState) (m0 : MemState)
    (j : Nat) (p : CacheState × MemState) : Prop :=
  p.1.state = IcState.FETCH ∧ p.1.refill_addr = alignedBase c A + 4 * j ∧
  p.1.refill_valid = true ∧ p.2.ready = true ∧
  p.1.tagDataO = tagMemAfterMiss c A s0 (setIndex c A) ∧
  p.2.i_data_o = m0.mem (memWordAddr aw (alignedBase c A + 4 * j)) % 2 ^ 32 ∧
  RefillCore c A s0 m0 p ∧ RefillData c aw A s0 m0 j p.1

/-- Cycle `3 + 4j`: valid dropped, data written, word `j` captured. -/
def BeatC (c : ICacheCfg) (aw A : Nat) (s0 : CacheState) (m0 : MemState)
    (j : Nat) (p : CacheState × MemState) : Prop :=
  p.1.state = IcState.FETCH ∧ p.1.refill_addr = alignedBase c A + 4 * j ∧
  p.1.refill_valid = false ∧ p.2.ready = true ∧
  p.1.tagDataO = tagMemAfterMiss c A s0 (setIndex c A) ∧
  p.2.i_data_o = m0.mem (memWordAddr aw (alignedBase c A + 4 * j)) % 2 ^ 32 ∧
  RefillCore c A s0 m0 p ∧ RefillData c aw A s0 m0 (j + 1) p.1

/-- Cycle `4 + 4j` after a non-final beat `j`: address advanced. -/
def BeatD (c : ICacheCfg) (aw A : Nat) (s0 : CacheState) (m0 : MemState)
    (j : Nat) (p : CacheState × MemState) : Prop :=
  p.1.state = IcState.FETCH ∧
  p.1.refill_addr = alignedBase c A + 4 * (j + 1) ∧
  p.1.refill_valid = false ∧ p.2.ready = false ∧
  RefillCore c A s0 m0 p ∧ RefillData c aw A s0 m0 (j + 1) p.1

/-- The WAIT bubble cycle after the final beat (cycle `4N`). -/
def WaitP (c : ICacheCfg) (aw A : Nat) (s0 : CacheState) (m0 : MemState)
    (p : CacheState × MemState) : Prop :=
  p.1.state = IcState.WAIT ∧ p.1.refill_valid = false ∧ p.2.ready = false ∧
  RefillCore c A s0 m0 p ∧
  RefillData c aw A s0 m0 (2 ^ (c.BLOCK_WIDTH - 2)) p.1

/-- The CHECK cycle after WAIT (cycle `4N + 1`), where the hit is served. -/
def FinalP (c : ICacheCfg) (aw A : Nat) (s0 : CacheState) (m0 : MemState)
    (p : CacheState × MemState) : Prop :=
  p.1.state = IcState.CHECK ∧ p.1.valid_q = true ∧
  p.1.tagDataO = tagMemAfterMiss c A s0 (setIndex c A) ∧
  RefillData c aw A s0 m0 (2 ^ (c.BLOCK_WIDTH - 2)) p.1

theorem missSig_of (c : ICacheCfg) (s0 : CacheState) (A : Nat)
    (hmwa : miss_w_and c s0 A = true) (hfl : s0.flush = false) :
    missSig c s0 { addr := A, fcn := MemOp.M_RD, valid := true } false = true := by
  simp [missSig, hmwa, hfl]

theorem lru_out_lt (c : ICacheCfg) (s : CacheState) :
    lru_out c s < 2 ^ TAG_LRU_WIDTH c :=
  Nat.mod_lt _ (Nat.two_pow_pos _)

theorem lru_select_after (c : ICacheCfg) (A : Nat) (s0 : CacheState)
    (s : CacheState)
    (hmiss : missSig c s0 { addr := A, fcn := MemOp.M_RD, valid := true } false =
      true)
    (htag : s.tagDataO = tagMemAfterMiss c A s0 (setIndex c A)) :
    lru_select c s = lru_select c s0 := by
  rw [lru_select, lru_select]
  congr 1
  rw [lru_out, htag, tagMemAfterMiss, Function.update_same, tagWData_lruField,
    lru_in, if_neg (by
      rintro ⟨_, hm⟩
      rw [hmiss] at hm
      exact absurd hm (by simp))]
  exact Nat.mod_eq_of_lt (lru_out_lt c s0)

theorem refillData_congr (c : ICacheCfg) (aw A : Nat) (s0 : CacheState)
    (m0 : MemState) (j : Nat) (s t : CacheState) (h : t.dataMem = s.dataMem)
    (hr : RefillData c aw A s0 m0 j s) : RefillData c aw A s0 m0 j t := by
  obtain ⟨h1, h2⟩ := hr
  exact ⟨fun i k hi hk => by rw [h]; exact h1 i k hi hk,
    fun i w hw => by rw [h]; exact h2 i w hw⟩

theorem refillData_write (c : ICacheCfg) (aw A : Nat) (s0 : CacheState)
    (m0 : MemState) (j jc : Nat) (hjc1 : j ≤ jc) (hjc2 : jc ≤ j + 1)
    (s t : CacheState) (hchar : RefillData c aw A s0 m0 jc s)
    (hdm : ∀ i, t.dataMem i =
      if (lru_select c s0).testBit i then
        Function.update (s.dataMem i)
          ((alignedBase c A % 2 ^ WAY_WIDTH c) >>> 2 + j)
          (m0.mem (memWordAddr aw (alignedBase c A + 4 * j)) % 2 ^ 32)
      else s.dataMem i) :
    RefillData c aw A s0 m0 (j + 1) t := by
  obtain ⟨hA1, hB1⟩ := hchar
  constructor
  · intro i k hi hk
    rw [hdm i, if_pos hi]
    by_cases hkj : k = j
    · subst hkj
      rw [Function.update_same]
    · have hne : (alignedBase c A % 2 ^ WAY_WIDTH c) >>> 2 + k ≠
          (alignedBase c A % 2 ^ WAY_WIDTH c) >>> 2 + j := by omega
      rw [Function.update_noteq hne]
      exact hA1 i k hi (by omega)
  · intro i w hw
    rcases hw with hsel | hnot
    · rw [hdm i, if_neg (by simp [hsel])]
      exact hB1 i w (Or.inl hsel)
    · have hnej : w ≠ (alignedBase c A % 2 ^ WAY_WIDTH c) >>> 2 + j :=
        hnot j (by omega)
      by_cases hsel : (lru_select c s0).testBit i = true
      · rw [hdm i, if_pos hsel, Function.update_noteq hnej]
        exact hB1 i w (Or.inr fun k hk => hnot k (by omega))
      · rw [hdm i, if_neg hsel]
        exact hB1 i w (Or.inr fun k hk => hnot k (by omega))

theorem refill_entry (c : ICacheCfg) (aw A : Nat) (s0 : CacheState)
    (m0 : MemState) (hst : s0.state = IcState.CHECK)
    (hrv : s0.refill_valid = false) (hfl : s0.flush = false)
    (hfw : s0.flush_we = false) (hmwa : miss_w_and c s0 A = true)
    (hmr : m0.ready = false) :
    BeatA c aw A s0 m0 0 (icacheTraj c aw A (s0, m0) 1) := by
  have hstep : icacheTraj c aw A (s0, m0) 1 =
      sysStep c aw (s0, m0) { addr := A, fcn := MemOp.M_RD, valid := true }
        false false := by
    rw [show (1 : Nat) = 0 + 1 from rfl, icacheTraj_succ, icacheTraj_zero]
  have hmiss := missSig_of c s0 A hmwa hfl
  rw [hstep]
  refine ⟨?_, ?_, ?_, ?_, ⟨?_, ?_, ?_, ?_, ?_⟩, ?_, ?_⟩
  · rw [sysStep_fst, icStep_state]
    simp only [nextState, hst, hfl, hmiss, Bool.or_self, Bool.false_eq_true,
      if_false, if_true]
  · rw [sysStep_fst, icStep_refill_addr]
    simp only [fetchNext, hst, hfl, hmiss, Bool.or_self, Bool.false_eq_true,
      if_false, if_true]
    simp [alignedBase]
  · rw [sysStep_fst, icStep_refill_valid]
    simp only [fetchNext, hst, hfl, hmiss, Bool.or_self, Bool.false_eq_true,
      if_false, if_true]
  · rw [sysStep_snd, memStep_ready, memReqOf_valid, hrv]
  · rw [sysStep_fst, icStep_flush]
    simp only [flushNext, hst, hfl, Bool.or_self, Bool.false_eq_true, if_false]
  · rw [sysStep_fst, icStep_flush_we]
    simp only [flushNext, hst, hfl, Bool.or_self, Bool.false_eq_true, if_false]
  · rw [sysStep_fst, icStep_valid_q]
  · rw [sysStep_fst, icStep_tagMem, ramWrite, ramWrite, hfw]
    have htw : tag_we s0 = true := by
      rw [tag_we, hst]
      rfl
    rw [htw]
    simp only [Bool.false_eq_true, if_false, if_true]
    rw [Nat.mod_eq_of_lt (tagWData_lt c s0 _ false)]
    rfl
  · rw [sysStep_snd, memStep_mem_rd _ _ _ rfl]
  · intro i k _ hk
    omega
  · intro i w _
    rw [sysStep_fst, icStep_dataMem_frame _ _ _ _ _ (by rw [memRespOf_ready, hmr])]

theorem refill_stepA (c : ICacheCfg) (aw A : Nat) (s0 : CacheState)
    (m0 : MemState) (j : Nat) (p : CacheState × MemState) (cpu : CpuIn)
    (hca : cpu.addr = A) (hcv : cpu.valid = true)
    (h : BeatA c aw A s0 m0 j p) :
    BeatB c aw A s0 m0 j (sysStep c aw p cpu false false) := by
  obtain ⟨hst, hra, hrv, hready, ⟨hfl, hfw, hvq, htm, hmem⟩, hdata⟩ := h
  have hrready : (memRespOf p.2).ready = false := by rw [memRespOf_ready, hready]
  have hff : final_fetch c p.1 (memRespOf p.2) = false :=
    final_fetch_of_ready_false _ _ _ hrready
  have h1 : (sysStep c aw p cpu false false).1.state = IcState.FETCH := by
    rw [sysStep_fst, icStep_state]
    simp only [nextState, hst, hff, Bool.false_eq_true, if_false]
  have hfn : fetchNext c p.1 cpu false (memRespOf p.2) =
      (p.1.refill_addr, true) := by
    simp only [fetchNext, hst, hrv, hrready, Bool.not_true, Bool.false_and,
      Bool.false_eq_true, if_false, Bool.not_false]
  have h2 : (sysStep c aw p cpu false false).1.refill_addr =
      alignedBase c A + 4 * j := by
    rw [sysStep_fst, icStep_refill_addr, hfn, hra]
  have h3 : (sysStep c aw p cpu false false).1.refill_valid = true := by
    rw [sysStep_fst, icStep_refill_valid, hfn]
  have h4 : (sysStep c aw p cpu false false).2.ready = true := by
    rw [sysStep_snd, memStep_ready, memReqOf_valid, hrv]
  have h5 : (sysStep c aw p cpu false false).1.tagDataO =
      tagMemAfterMiss c A s0 (setIndex c A) := by
    rw [sysStep_fst, icStep_tagDataO, htm, hca]
  have h6 : (sysStep c aw p cpu false false).2.i_data_o =
      m0.mem (memWordAddr aw (alignedBase c A + 4 * j)) % 2 ^ 32 := by
    rw [sysStep_snd, memStep_i_data_o_rd _ _ _ rfl, memReqOf_addr, hra, hmem]
  have h7 : (sysStep c aw p cpu false false).1.flush = false := by
    rw [sysStep_fst, icStep_flush]
    simp only [flushNext, hst]
  have h8 : (sysStep c aw p cpu false false).1.flush_we = false := by
    rw [sysStep_fst, icStep_flush_we]
    simp only [flushNext, hst]
  have h9 : (sysStep c aw p cpu false false).1.valid_q = true := by
    rw [sysStep_fst, icStep_valid_q, hcv]
  have h10 : (sysStep c aw p cpu false false).1.tagMem =
      tagMemAfterMiss c A s0 := by
    rw [sysStep_fst, icStep_tagMem_frame _ _ _ _ _ (by rw [hst]; simp) hfw, htm]
  have h11 : (sysStep c aw p cpu false false).2.mem = m0.mem := by
    rw [sysStep_snd, memStep_mem_rd _ _ _ rfl, hmem]
  have h12 : RefillData c aw A s0 m0 j (sysStep c aw p cpu false false).1 :=
    refillData_congr c aw A s0 m0 j p.1 _
      (by rw [sysStep_fst, icStep_dataMem_frame _ _ _ _ _ hrready]) hdata
  exact ⟨h1, h2, h3, h4, h5, h6, ⟨h7, h8, h9, h10, h11⟩, h12⟩

theorem refill_stepB (c : ICacheCfg) (aw A : Nat) (s0 : CacheState)
    (m0 : MemState) (j : Nat) (p : CacheState × MemState) (cpu : CpuIn)
    (hca : cpu.addr = A) (hcv : cpu.valid = true)
    (hBW : 2 ≤ c.BLOCK_WIDTH) (hj : j < 2 ^ (c.BLOCK_WIDTH - 2))
    (hmwa0 : miss_w_and c s0 A = true)
    (hfl0 : s0.flush = false) (h : BeatB c aw A s0 m0 j p) :
    BeatC c aw A s0 m0 j (sysStep c aw p cpu false false) := by
  obtain ⟨hst, hra, hrv, hready, htago, hido, ⟨hfl, hfw, hvq, htm, hmem⟩, hdata⟩ := h
  have hrready : (memRespOf p.2).ready = true := by rw [memRespOf_ready, hready]
  have hff : final_fetch c p.1 (memRespOf p.2) = false :=
    final_fetch_of_rv_true _ _ _ hrv
  have h1 : (sysStep c aw p cpu false false).1.state = IcState.FETCH := by
    rw [sysStep_fst, icStep_state]
    simp only [nextState, hst, hff, Bool.false_eq_true, if_false]
  have hfn : fetchNext c p.1 cpu false (memRespOf p.2) =
      (p.1.refill_addr, false) := by
    simp only [fetchNext, hst, hrv, hrready, Bool.not_true, Bool.false_and,
      Bool.false_eq_true, if_false]
  have h2 : (sysStep c aw p cpu false false).1.refill_addr =
      alignedBase c A + 4 * j := by
    rw [sysStep_fst, icStep_refill_addr, hfn, hra]
  have h3 : (sysStep c aw p cpu false false).1.refill_valid = false := by
    rw [sysStep_fst, icStep_refill_valid, hfn]
  have h4 : (sysStep c aw p cpu false false).2.ready = true := by
    rw [sysStep_snd, memStep_ready, memReqOf_valid, hrv]
  have h5 : (sysStep c aw p cpu false false).1.tagDataO =
      tagMemAfterMiss c A s0 (setIndex c A) := by
    rw [sysStep_fst, icStep_tagDataO, htm, hca]
  have h6 : (sysStep c aw p cpu false false).2.i_data_o =
      m0.mem (memWordAddr aw (alignedBase c A + 4 * j)) % 2 ^ 32 := by
    rw [sysStep_snd, memStep_i_data_o_rd _ _ _ rfl, memReqOf_addr, hra, hmem]
  have h7 : (sysStep c aw p cpu false false).1.flush = false := by
    rw [sysStep_fst, icStep_flush]
    simp only [flushNext, hst]
  have h8 : (sysStep c aw p cpu false false).1.flush_we = false := by
    rw [sysStep_fst, icStep_flush_we]
    simp only [flushNext, hst]
  have h9 : (sysStep c aw p cpu false false).1.valid_q = true := by
    rw [sysStep_fst, icStep_valid_q, hcv]
  have h10 : (sysStep c aw p cpu false false).1.tagMem =
      tagMemAfterMiss c A s0 := by
    rw [sysStep_fst, icStep_tagMem_frame _ _ _ _ _ (by rw [hst]; simp) hfw, htm]
  have h11 : (sysStep c aw p cpu false false).2.mem = m0.mem := by
    rw [sysStep_snd, memStep_mem_rd _ _ _ rfl, hmem]
  have h4j : 4 * j < 2 ^ c.BLOCK_WIDTH := by
    rw [two_pow_bw_eq _ hBW]
    omega
  have hdm : ∀ i, (sysStep c aw p cpu false false).1.dataMem i =
      if (lru_select c s0).testBit i then
        Function.update (p.1.dataMem i)
          ((alignedBase c A % 2 ^ WAY_WIDTH c) >>> 2 + j)
          (m0.mem (memWordAddr aw (alignedBase c A + 4 * j)) % 2 ^ 32)
      else p.1.dataMem i := by
    intro i
    rw [sysStep_fst, icStep_dataMem, ramWrite,
      lru_select_after c A s0 p.1 (missSig_of c s0 A hmwa0 hfl0) htago,
      hrready, Bool.and_true, memRespOf_rdata, memRData, hready, if_pos rfl,
      hido, Nat.mod_mod_of_dvd _ dvd_rfl, hra,
      refill_word_addr c A j hBW h4j]
  have h12 : RefillData c aw A s0 m0 (j + 1) (sysStep c aw p cpu false false).1 :=
    refillData_write c aw A s0 m0 j j le_rfl (by omega) p.1 _ hdata hdm
  exact ⟨h1, h2, h3, h4, h5, h6, ⟨h7, h8, h9, h10, h11⟩, h12⟩

theorem refill_stepC (c : ICacheCfg) (aw A : Nat) (s0 : CacheState)
    (m0 : MemState) (j : Nat) (p : CacheState × MemState) (cpu : CpuIn)
    ( _hca : cpu.addr = A) (hcv : cpu.valid = true)
    (hBW : 2 ≤ c.BLOCK_WIDTH) (hWL : WAY_WIDTH c ≤ c.LIMIT_WIDTH)
    (hj1 : j + 1 < 2 ^ (c.BLOCK_WIDTH - 2))
    (hmwa0 : miss_w_and c s0 A = true)
    (hfl0 : s0.flush = false) (h : BeatC c aw A s0 m0 j p) :
    BeatD c aw A s0 m0 j (sysStep c aw p cpu false false) := by
  obtain ⟨hst, hra, hrv, hready, htago, hido, ⟨hfl, hfw, hvq, htm, hmem⟩, hdata⟩ := h
  have hrready : (memRespOf p.2).ready = true := by rw [memRespOf_ready, hready]
  have h4j : 4 * j < 2 ^ c.BLOCK_WIDTH := by
    rw [two_pow_bw_eq _ hBW]
    omega
  have hff : final_fetch c p.1 (memRespOf p.2) = false := by
    rw [final_fetch, hra, alignedBase_block_offset c A j h4j,
      lastWordOffset_eq c hBW]
    have hne : 4 * j ≠ 4 * (2 ^ (c.BLOCK_WIDTH - 2) - 1) := by omega
    simp [hne]
  have h1 : (sysStep c aw p cpu false false).1.state = IcState.FETCH := by
    rw [sysStep_fst, icStep_state]
    simp only [nextState, hst, hff, Bool.false_eq_true, if_false]
  have hfn : fetchNext c p.1 cpu false (memRespOf p.2) =
      ((p.1.refill_addr + 4 % 2 ^ c.BLOCK_WIDTH) % 2 ^ c.LIMIT_WIDTH, false) := by
    simp only [fetchNext, hst, hrv, hrready, hff, Bool.not_false, Bool.true_and,
      if_true, Bool.false_eq_true, if_false, Bool.not_true]
  have hBL : c.BLOCK_WIDTH ≤ c.LIMIT_WIDTH := by
    rw [WAY_WIDTH] at hWL
    omega
  have h42 : (4 : Nat) % 2 ^ c.BLOCK_WIDTH = 4 := by
    apply Nat.mod_eq_of_lt
    rw [two_pow_bw_eq _ hBW]
    omega
  have h2 : (sysStep c aw p cpu false false).1.refill_addr =
      alignedBase c A + 4 * (j + 1) := by
    rw [sysStep_fst, icStep_refill_addr, hfn, hra, h42]
    have hlt : alignedBase c A + 4 * j + 4 < 2 ^ c.LIMIT_WIDTH := by
      have hx := alignedBase_add_lt c A (4 * j + 4) (by
        rw [two_pow_bw_eq _ hBW]
        omega) hBL
      omega
    rw [Nat.mod_eq_of_lt hlt]
    omega
  have h3 : (sysStep c aw p cpu false false).1.refill_valid = false := by
    rw [sysStep_fst, icStep_refill_valid, hfn]
  have h4 : (sysStep c aw p cpu false false).2.ready = false := by
    rw [sysStep_snd, memStep_ready, memReqOf_valid, hrv]
  have h7 : (sysStep c aw p cpu false false).1.flush = false := by
    rw [sysStep_fst, icStep_flush]
    simp only [flushNext, hst]
  have h8 : (sysStep c aw p cpu false false).1.flush_we = false := by
    rw [sysStep_fst, icStep_flush_we]
    simp only [flushNext, hst]
  have h9 : (sysStep c aw p cpu false false).1.valid_q = true := by
    rw [sysStep_fst, icStep_valid_q, hcv]
  have h10 : (sysStep c aw p cpu false false).1.tagMem =
      tagMemAfterMiss c A s0 := by
    rw [sysStep_fst, icStep_tagMem_frame _ _ _ _ _ (by rw [hst]; simp) hfw, htm]
  have h11 : (sysStep c aw p cpu false false).2.mem = m0.mem := by
    rw [sysStep_snd, memStep_mem_rd _ _ _ rfl, hmem]
  have hdm : ∀ i, (sysStep c aw p cpu false false).1.dataMem i =
      if (lru_select c s0).testBit i then
        Function.update (p.1.dataMem i)
          ((alignedBase c A % 2 ^ WAY_WIDTH c) >>> 2 + j)
          (m0.mem (memWordAddr aw (alignedBase c A + 4 * j)) % 2 ^ 32)
      else p.1.dataMem i := by
    intro i
    rw [sysStep_fst, icStep_dataMem, ramWrite,
      lru_select_after c A s0 p.1 (missSig_of c s0 A hmwa0 hfl0) htago,
      hrready, Bool.and_true, memRespOf_rdata, memRData, hready, if_pos rfl,
      hido, Nat.mod_mod_of_dvd _ dvd_rfl, hra,
      refill_word_addr c A j hBW h4j]
  have h12 : RefillData c aw A s0 m0 (j + 1) (sysStep c aw p cpu false false).1 :=
    refillData_write c aw A s0 m0 j (j + 1) (by omega) le_rfl p.1 _ hdata hdm
  exact ⟨h1, h2, h3, h4, ⟨h7, h8, h9, h10, h11⟩, h12⟩

theorem refill_stepC_final (c : ICacheCfg) (aw A : Nat) (s0 : CacheState)
    (m0 : MemState) (j : Nat) (p : CacheState × MemState) (cpu : CpuIn)
    ( _hca : cpu.addr = A) (hcv : cpu.valid = true)
    (hBW : 2 ≤ c.BLOCK_WIDTH) (hlast : j + 1 = 2 ^ (c.BLOCK_WIDTH - 2))
    (hmwa0 : miss_w_and c s0 A = true)
    (hfl0 : s0.flush = false) (h : BeatC c aw A s0 m0 j p) :
    WaitP c aw A s0 m0 (sysStep c aw p cpu false false) := by
  obtain ⟨hst, hra, hrv, hready, htago, hido, ⟨hfl, hfw, hvq, htm, hmem⟩, hdata⟩ := h
  have hrready : (memRespOf p.2).ready = true := by rw [memRespOf_ready, hready]
  have h4j : 4 * j < 2 ^ c.BLOCK_WIDTH := by
    rw [two_pow_bw_eq _ hBW]
    omega
  have hff : final_fetch c p.1 (memRespOf p.2) = true := by
    rw [final_fetch, hra, alignedBase_block_offset c A j h4j,
      lastWordOffset_eq c hBW, hrready, hrv]
    have heq : 4 * j = 4 * (2 ^ (c.BLOCK_WIDTH - 2) - 1) := by omega
    simp [heq]
  have h1 : (sysStep c aw p cpu false false).1.state = IcState.WAIT := by
    rw [sysStep_fst, icStep_state]
    simp only [nextState, hst, hff, if_true]
  have hfn : fetchNext c p.1 cpu false (memRespOf p.2) = (0, false) := by
    simp only [fetchNext, hst, hrv, hrready, hff, Bool.not_false, Bool.true_and,
      if_true]
  have h3 : (sysStep c aw p cpu false false).1.refill_valid = false := by
    rw [sysStep_fst, icStep_refill_valid, hfn]
  have h4 : (sysStep c aw p cpu false false).2.ready = false := by
    rw [sysStep_snd, memStep_ready, memReqOf_valid, hrv]
  have h7 : (sysStep c aw p cpu false false).1.flush = false := by
    rw [sysStep_fst, icStep_flush]
    simp only [flushNext, hst]
  have h8 : (sysStep c aw p cpu false false).1.flush_we = false := by
    rw [sysStep_fst, icStep_flush_we]
    simp only [flushNext, hst]
  have h9 : (sysStep c aw p cpu false false).1.valid_q = true := by
    rw [sysStep_fst, icStep_valid_q, hcv]
  have h10 : (sysStep c aw p cpu false false).1.tagMem =
      tagMemAfterMiss c A s0 := by
    rw [sysStep_fst, icStep_tagMem_frame _ _ _ _ _ (by rw [hst]; simp) hfw, htm]
  have h11 : (sysStep c aw p cpu false false).2.mem = m0.mem := by
    rw [sysStep_snd, memStep_mem_rd _ _ _ rfl, hmem]
  have hdm : ∀ i, (sysStep c aw p cpu false false).1.dataMem i =
      if (lru_select c s0).testBit i then
        Function.update (p.1.dataMem i)
          ((alignedBase c A % 2 ^ WAY_WIDTH c) >>> 2 + j)
          (m0.mem (memWordAddr aw (alignedBase c A + 4 * j)) % 2 ^ 32)
      else p.1.dataMem i := by
    intro i
    rw [sysStep_fst, icStep_dataMem, ramWrite,
      lru_select_after c A s0 p.1 (missSig_of c s0 A hmwa0 hfl0) htago,
      hrready, Bool.and_true, memRespOf_rdata, memRData, hready, if_pos rfl,
      hido, Nat.mod_mod_of_dvd _ dvd_rfl, hra,
      refill_word_addr c A j hBW h4j]
  have h12 : RefillData c aw A s0 m0 (j + 1) (sysStep c aw p cpu false false).1 :=
    refillData_write c aw A s0 m0 j (j + 1) (by omega) le_rfl p.1 _ hdata hdm
  rw [hlast] at h12
  exact ⟨h1, h3, h4, ⟨h7, h8, h9, h10, h11⟩, h12⟩

theorem refill_stepD (c : ICacheCfg) (aw A : Nat) (s0 : CacheState)
    (m0 : MemState) (j : Nat) (p : CacheState × MemState) (cpu : CpuIn)
    ( _hca : cpu.addr = A) (hcv : cpu.valid = true)
    (h : BeatD c aw A s0 m0 j p) :
    BeatA c aw A s0 m0 (j + 1) (sysStep c aw p cpu false false) := by
  obtain ⟨hst, hra, hrv, hready, ⟨hfl, hfw, hvq, htm, hmem⟩, hdata⟩ := h
  have hrready : (memRespOf p.2).ready = false := by rw [memRespOf_ready, hready]
  have hff : final_fetch c p.1 (memRespOf p.2) = false :=
    final_fetch_of_ready_false _ _ _ hrready
  have h1 : (sysStep c aw p cpu false false).1.state = IcState.FETCH := by
    rw [sysStep_fst, icStep_state]
    simp only [nextState, hst, hff, Bool.false_eq_true, if_false]
  have hfn : fetchNext c p.1 cpu false (memRespOf p.2) =
      (p.1.refill_addr, true) := by
    simp only [fetchNext, hst, hrv, hrready, Bool.not_false, Bool.true_and,
      Bool.and_false, Bool.false_eq_true, if_false]
  have h2 : (sysStep c aw p cpu false false).1.refill_addr =
      alignedBase c A + 4 * (j + 1) := by
    rw [sysStep_fst, icStep_refill_addr, hfn, hra]
  have h3 : (sysStep c aw p cpu false false).1.refill_valid = true := by
    rw [sysStep_fst, icStep_refill_valid, hfn]
  have h4 : (sysStep c aw p cpu false false).2.ready = false := by
    rw [sysStep_snd, memStep_ready, memReqOf_valid, hrv]
  have h7 : (sysStep c aw p cpu false false).1.flush = false := by
    rw [sysStep_fst, icStep_flush]
    simp only [flushNext, hst]
  have h8 : (sysStep c aw p cpu false false).1.flush_we = false := by
    rw [sysStep_fst, icStep_flush_we]
    simp only [flushNext, hst]
  have h9 : (sysStep c aw p cpu false false).1.valid_q = true := by
    rw [sysStep_fst, icStep_valid_q, hcv]
  have h10 : (sysStep c aw p cpu false false).1.tagMem =
      tagMemAfterMiss c A s0 := by
    rw [sysStep_fst, icStep_tagMem_frame _ _ _ _ _ (by rw [hst]; simp) hfw, htm]
  have h11 : (sysStep c aw p cpu false false).2.mem = m0.mem := by
    rw [sysStep_snd, memStep_mem_rd _ _ _ rfl, hmem]
  have h12 : RefillData c aw A s0 m0 (j + 1)
      (sysStep c aw p cpu false false).1 :=
    refillData_congr c aw A s0 m0 (j + 1) p.1 _
      (by rw [sysStep_fst, icStep_dataMem_frame _ _ _ _ _ hrready]) hdata
  exact ⟨h1, h2, h3, h4, ⟨h7, h8, h9, h10, h11⟩, h12⟩

theorem refill_stepW (c : ICacheCfg) (aw A : Nat) (s0 : CacheState)
    (m0 : MemState) (p : CacheState × MemState) (cpu : CpuIn)
    (hca : cpu.addr = A) (hcv : cpu.valid = true)
    (h : WaitP c aw A s0 m0 p) :
    FinalP c aw A s0 m0 (sysStep c aw p cpu false false) := by
  obtain ⟨hst, hrv, hready, ⟨hfl, hfw, hvq, htm, hmem⟩, hdata⟩ := h
  have hrready : (memRespOf p.2).ready = false := by rw [memRespOf_ready, hready]
  have h1 : (sysStep c aw p cpu false false).1.state = IcState.CHECK := by
    rw [sysStep_fst, icStep_state]
    simp only [nextState, hst]
  have h9 : (sysStep c aw p cpu false false).1.valid_q = true := by
    rw [sysStep_fst, icStep_valid_q, hcv]
  have h5 : (sysStep c aw p cpu false false).1.tagDataO =
      tagMemAfterMiss c A s0 (setIndex c A) := by
    rw [sysStep_fst, icStep_tagDataO, htm, hca]
  have h12 : RefillData c aw A s0 m0 (2 ^ (c.BLOCK_WIDTH - 2))
      (sysStep c aw p cpu false false).1 :=
    refillData_congr c aw A s0 m0 _ p.1 _
      (by rw [sysStep_fst, icStep_dataMem_frame _ _ _ _ _ hrready]) hdata
  exact ⟨h1, h9, h5, h12⟩

theorem refill_beatA (c : ICacheCfg) (aw A : Nat) (s0 : CacheState)
    (m0 : MemState) (hBW : 2 ≤ c.BLOCK_WIDTH)
    (hWL : WAY_WIDTH c ≤ c.LIMIT_WIDTH) (hst : s0.state = IcState.CHECK)
    (hrv : s0.refill_valid = false) (hfl : s0.flush = false)
    (hfw : s0.flush_we = false) (hmwa : miss_w_and c s0 A = true)
    (hmr : m0.ready = false) :
    ∀ j, j < 2 ^ (c.BLOCK_WIDTH - 2) →
      BeatA c aw A s0 m0 j (icacheTraj c aw A (s0, m0) (1 + 4 * j)) := by
  intro j
  induction j with
  | zero =>
    intro _
    exact refill_entry c aw A s0 m0 hst hrv hfl hfw hmwa hmr
  | succ j ih =>
    intro hj1
    have hA := ih (by omega)
    have hB : BeatB c aw A s0 m0 j
        (icacheTraj c aw A (s0, m0) (1 + 4 * j + 1)) := by
      rw [icacheTraj_succ]
      exact refill_stepA c aw A s0 m0 j _ _ rfl rfl hA
    have hC : BeatC c aw A s0 m0 j
        (icacheTraj c aw A (s0, m0) (1 + 4 * j + 2)) := by
      rw [show 1 + 4 * j + 2 = (1 + 4 * j + 1) + 1 by omega, icacheTraj_succ]
      exact refill_stepB c aw A s0 m0 j _ _ rfl rfl hBW (by omega) hmwa hfl hB
    have hD : BeatD c aw A s0 m0 j
        (icacheTraj c aw A (s0, m0) (1 + 4 * j + 3)) := by
      rw [show 1 + 4 * j + 3 = (1 + 4 * j + 2) + 1 by omega, icacheTraj_succ]
      exact refill_stepC c aw A s0 m0 j _ _ rfl rfl hBW hWL hj1 hmwa hfl hC
    rw [show 1 + 4 * (j + 1) = (1 + 4 * j + 3) + 1 by omega, icacheTraj_succ]
    exact refill_stepD c aw A s0 m0 j _ _ rfl rfl hD

theorem refill_beatB (c : ICacheCfg) (aw A : Nat) (s0 : CacheState)
    (m0 : MemState) (hBW : 2 ≤ c.BLOCK_WIDTH)
    (hWL : WAY_WIDTH c ≤ c.LIMIT_WIDTH) (hst : s0.state = IcState.CHECK)
    (hrv : s0.refill_valid = false) (hfl : s0.flush = false)
    (hfw : s0.flush_we = false) (hmwa : miss_w_and c s0 A = true)
    (hmr : m0.ready = false) :
    ∀ j, j < 2 ^ (c.BLOCK_WIDTH - 2) →
      BeatB c aw A s0 m0 j (icacheTraj c aw A (s0, m0) (2 + 4 * j)) := by
  intro j hj
  rw [show 2 + 4 * j = (1 + 4 * j) + 1 by omega, icacheTraj_succ]
  exact refill_stepA c aw A s0 m0 j _ _ rfl rfl
    (refill_beatA c aw A s0 m0 hBW hWL hst hrv hfl hfw hmwa hmr j hj)

theorem refill_beatC (c : ICacheCfg) (aw A : Nat) (s0 : CacheState)
    (m0 : MemState) (hBW : 2 ≤ c.BLOCK_WIDTH)
    (hWL : WAY_WIDTH c ≤ c.LIMIT_WIDTH) (hst : s0.state = IcState.CHECK)
    (hrv : s0.refill_valid = false) (hfl : s0.flush = false)
    (hfw : s0.flush_we = false) (hmwa : miss_w_and c s0 A = true)
    (hmr : m0.ready = false) :
    ∀ j, j < 2 ^ (c.BLOCK_WIDTH - 2) →
      BeatC c aw A s0 m0 j (icacheTraj c aw A (s0, m0) (3 + 4 * j)) := by
  intro j hj
  rw [show 3 + 4 * j = (2 + 4 * j) + 1 by omega, icacheTraj_succ]
  exact refill_stepB c aw A s0 m0 j _ _ rfl rfl hBW hj hmwa hfl
    (refill_beatB c aw A s0 m0 hBW hWL hst hrv hfl hfw hmwa hmr j hj)

theorem refill_beatD (c : ICacheCfg) (aw A : Nat) (s0 : CacheState)
    (m0 : MemState) (hBW : 2 ≤ c.BLOCK_WIDTH)
    (hWL : WAY_WIDTH c ≤ c.LIMIT_WIDTH) (hst : s0.state = IcState.CHECK)
    (hrv : s0.refill_valid = false) (hfl : s0.flush = false)
    (hfw : s0.flush_we = false) (hmwa : miss_w_and c s0 A = true)
    (hmr : m0.ready = false) :
    ∀ j, j + 1 < 2 ^ (c.BLOCK_WIDTH - 2) →
      BeatD c aw A s0 m0 j (icacheTraj c aw A (s0, m0) (4 + 4 * j)) := by
  intro j hj1
  rw [show 4 + 4 * j = (3 + 4 * j) + 1 by omega, icacheTraj_succ]
  exact refill_stepC c aw A s0 m0 j _ _ rfl rfl hBW hWL hj1 hmwa hfl
    (refill_beatC c aw A s0 m0 hBW hWL hst hrv hfl hfw hmwa hmr j (by omega))

theorem refill_wait (c : ICacheCfg) (aw A : Nat) (s0 : CacheState)
    (m0 : MemState) (hBW : 2 ≤ c.BLOCK_WIDTH)
    (hWL : WAY_WIDTH c ≤ c.LIMIT_WIDTH) (hst : s0.state = IcState.CHECK)
    (hrv : s0.refill_valid = false) (hfl : s0.flush = false)
    (hfw : s0.flush_we = false) (hmwa : miss_w_and c s0 A = true)
    (hmr : m0.ready = false) :
    WaitP c aw A s0 m0
      (icacheTraj c aw A (s0, m0) (4 * 2 ^ (c.BLOCK_WIDTH - 2))) := by
  have hN1 : 1 ≤ 2 ^ (c.BLOCK_WIDTH - 2) := Nat.one_le_two_pow
  have hC := refill_beatC c aw A s0 m0 hBW hWL hst hrv hfl hfw hmwa hmr
    (2 ^ (c.BLOCK_WIDTH - 2) - 1) (by omega)
  rw [show 4 * 2 ^ (c.BLOCK_WIDTH - 2) =
    (3 + 4 * (2 ^ (c.BLOCK_WIDTH - 2) - 1)) + 1 by omega, icacheTraj_succ]
  exact refill_stepC_final c aw A s0 m0 (2 ^ (c.BLOCK_WIDTH - 2) - 1) _ _
    rfl rfl hBW (by omega) hmwa hfl hC

theorem refill_final (c : ICacheCfg) (aw A : Nat) (s0 : CacheState)
    (m0 : MemState) (hBW : 2 ≤ c.BLOCK_WIDTH)
    (hWL : WAY_WIDTH c ≤ c.LIMIT_WIDTH) (hst : s0.state = IcState.CHECK)
    (hrv : s0.refill_valid = false) (hfl : s0.flush = false)
    (hfw : s0.flush_we = false) (hmwa : miss_w_and c s0 A = true)
    (hmr : m0.ready = false) :
    FinalP c aw A s0 m0
      (icacheTraj c aw A (s0, m0) (4 * 2 ^ (c.BLOCK_WIDTH - 2) + 1)) := by
  rw [icacheTraj_succ]
  exact refill_stepW c aw A s0 m0 _ _ rfl rfl
    (refill_wait c aw A s0 m0 hBW hWL hst hrv hfl hfw hmwa hmr)

theorem cpuReady_of_busy (c : ICacheCfg) (s : CacheState) (cpu : CpuIn)
    (h : s.state ≠ IcState.CHECK) : cpuReady c s cpu = false := by
  rw [cpuReady, cpuReadyComb, busy]
  simp [h]

theorem cpuReady_of_miss (c : ICacheCfg) (s : CacheState) (A : Nat)
    (hst : s.state = IcState.CHECK) (hmwa : miss_w_and c s A = true) :
    cpuReady c s { addr := A, fcn := MemOp.M_RD, valid := true } = false := by
  simp [cpuReady, cpuReadyComb, busy, hst, hmwa]

theorem refill_ready_low (c : ICacheCfg) (aw A : Nat) (s0 : CacheState)
    (m0 : MemState) (hBW : 2 ≤ c.BLOCK_WIDTH)
    (hWL : WAY_WIDTH c ≤ c.LIMIT_WIDTH) (hst : s0.state = IcState.CHECK)
    (hrv : s0.refill_valid = false) (hfl : s0.flush = false)
    (hfw : s0.flush_we = false) (hmwa : miss_w_and c s0 A = true)
    (hmr : m0.ready = false) :
    ∀ t, t ≤ 4 * 2 ^ (c.BLOCK_WIDTH - 2) →
      cpuReady c (icacheTraj c aw A (s0, m0) t).1
        { addr := A, fcn := MemOp.M_RD, valid := true } = false := by
  intro t ht
  rcases Nat.eq_zero_or_pos t with h0 | h1
  · subst h0
    rw [icacheTraj_zero]
    exact cpuReady_of_miss c s0 A hst hmwa
  · obtain ⟨j, r, hr, heq, hjN⟩ : ∃ j r, r < 4 ∧ t = 1 + 4 * j + r ∧
        j < 2 ^ (c.BLOCK_WIDTH - 2) := by
      refine ⟨(t - 1) / 4, (t - 1) % 4, ?_, ?_, ?_⟩ <;> omega
    subst heq
    apply cpuReady_of_busy
    interval_cases r
    · rw [show 1 + 4 * j + 0 = 1 + 4 * j by omega,
        (refill_beatA c aw A s0 m0 hBW hWL hst hrv hfl hfw hmwa hmr j hjN).1]
      simp
    · rw [show 1 + 4 * j + 1 = 2 + 4 * j by omega,
        (refill_beatB c aw A s0 m0 hBW hWL hst hrv hfl hfw hmwa hmr j hjN).1]
      simp
    · rw [show 1 + 4 * j + 2 = 3 + 4 * j by omega,
        (refill_beatC c aw A s0 m0 hBW hWL hst hrv hfl hfw hmwa hmr j hjN).1]
      simp
    · by_cases hj1 : j + 1 < 2 ^ (c.BLOCK_WIDTH - 2)
      · rw [show 1 + 4 * j + 3 = 4 + 4 * j by omega,
          (refill_beatD c aw A s0 m0 hBW hWL hst hrv hfl hfw hmwa hmr j hj1).1]
        simp
      · rw [show 1 + 4 * j + 3 = 4 * 2 ^ (c.BLOCK_WIDTH - 2) by omega,
          (refill_wait c aw A s0 m0 hBW hWL hst hrv hfl hfw hmwa hmr).1]
        simp

theorem refill_handshakes (c : ICacheCfg) (aw A : Nat) (s0 : CacheState)
    (m0 : MemState) (hBW : 2 ≤ c.BLOCK_WIDTH)
    (hWL : WAY_WIDTH c ≤ c.LIMIT_WIDTH) (hst : s0.state = IcState.CHECK)
    (hrv : s0.refill_valid = false) (hfl : s0.flush = false)
    (hfw : s0.flush_we = false) (hmwa : miss_w_and c s0 A = true)
    (hmr : m0.ready = false) :
    ∀ t, t ≤ 4 * 2 ^ (c.BLOCK_WIDTH - 2) →
      (((icacheTraj c aw A (s0, m0) t).1.refill_valid &&
          (icacheTraj c aw A (s0, m0) t).2.ready) = true ↔
        ∃ k, k < 2 ^ (c.BLOCK_WIDTH - 2) ∧ t = 2 + 4 * k) := by
  intro t ht
  constructor
  · intro hh
    rcases Nat.eq_zero_or_pos t with h0 | h1
    · subst h0
      rw [icacheTraj_zero] at hh
      rw [hrv] at hh
      simp at hh
    · obtain ⟨j, r, hr, heq, hjN⟩ : ∃ j r, r < 4 ∧ t = 1 + 4 * j + r ∧
          j < 2 ^ (c.BLOCK_WIDTH - 2) := by
        refine ⟨(t - 1) / 4, (t - 1) % 4, ?_, ?_, ?_⟩ <;> omega
      subst heq
      interval_cases r
      · rw [show 1 + 4 * j + 0 = 1 + 4 * j by omega,
          (refill_beatA c aw A s0 m0 hBW hWL hst hrv hfl hfw hmwa hmr
            j hjN).2.2.2.1] at hh
        simp at hh
      · exact ⟨j, hjN, by omega⟩
      · rw [show 1 + 4 * j + 2 = 3 + 4 * j by omega,
          (refill_beatC c aw A s0 m0 hBW hWL hst hrv hfl hfw hmwa hmr
            j hjN).2.2.1] at hh
        simp at hh
      · by_cases hj1 : j + 1 < 2 ^ (c.BLOCK_WIDTH - 2)
        · rw [show 1 + 4 * j + 3 = 4 + 4 * j by omega,
            (refill_beatD c aw A s0 m0 hBW hWL hst hrv hfl hfw hmwa hmr
              j hj1).2.2.1] at hh
          simp at hh
        · rw [show 1 + 4 * j + 3 = 4 * 2 ^ (c.BLOCK_WIDTH - 2) by omega,
            (refill_wait c aw A s0 m0 hBW hWL hst hrv hfl hfw hmwa hmr).2.1]
            at hh
          simp at hh
  · rintro ⟨k, hk, rfl⟩
    rw [(refill_beatB c aw A s0 m0 hBW hWL hst hrv hfl hfw hmwa hmr
        k hk).2.2.1,
      (refill_beatB c aw A s0 m0 hBW hWL hst hrv hfl hfw hmwa hmr
        k hk).2.2.2.1]
    rfl

theorem refill_beat_addr (c : ICacheCfg) (aw A : Nat) (s0 : CacheState)
    (m0 : MemState) (hBW : 2 ≤ c.BLOCK_WIDTH)
    (hWL : WAY_WIDTH c ≤ c.LIMIT_WIDTH) (hA : A < 2 ^ c.LIMIT_WIDTH)
    (hst : s0.state = IcState.CHECK)
    (hrv : s0.refill_valid = false) (hfl : s0.flush = false)
    (hfw : s0.flush_we = false) (hmwa : miss_w_and c s0 A = true)
    (hmr : m0.ready = false) :
    ∀ k, k < 2 ^ (c.BLOCK_WIDTH - 2) →
      (icacheTraj c aw A (s0, m0) (2 + 4 * k)).1.refill_addr =
        (A - A % 2 ^ c.BLOCK_WIDTH) + 4 * k := by
  intro k hk
  have hBL : c.BLOCK_WIDTH ≤ c.LIMIT_WIDTH := by
    rw [WAY_WIDTH] at hWL
    omega
  rw [(refill_beatB c aw A s0 m0 hBW hWL hst hrv hfl hfw hmwa hmr k hk).2.1,
    alignedBase_spec c A hA hBL]

theorem finalP_ready (c : ICacheCfg) (aw A : Nat) (s0 : CacheState)
    (m0 : MemState) (p : CacheState × MemState) (v : Nat) (hvW : v < c.WAYS)
    (hvsel : (lru_select c s0).testBit v = true)
    (hst0 : s0.state = IcState.CHECK) (hmwa0 : miss_w_and c s0 A = true)
    (hfl0 : s0.flush = false) (h : FinalP c aw A s0 m0 p) :
    cpuReady c p.1 { addr := A, fcn := MemOp.M_RD, valid := true } = true := by
  obtain ⟨hst1, hvq1, htago, _⟩ := h
  have hmiss0 := missSig_of c s0 A hmwa0 hfl0
  have htin : tag_in c s0 { addr := A, fcn := MemOp.M_RD, valid := true }
      false v = 2 ^ TAG_WIDTH c + addrTag c A := by
    rw [tag_in, if_pos ⟨hst0, hmiss0, hvsel⟩]
  have htov : tag_out c p.1 v = 2 ^ TAG_WIDTH c + addrTag c A := by
    rw [tag_out, htago, tagMemAfterMiss, Function.update_same,
      tagWData_chunk c s0 _ false v hvW, htin,
      Nat.mod_eq_of_lt (victim_entry_lt c A)]
  have hvb : (2 ^ TAG_WIDTH c + addrTag c A).testBit (TAG_WIDTH c) = true := by
    rw [Nat.testBit_two_pow_add_eq, Nat.testBit_lt_two_pow (addrTag_lt c A)]
    rfl
  have hfield : (2 ^ TAG_WIDTH c + addrTag c A) % 2 ^ TAG_WIDTH c =
      addrTag c A := by
    rw [Nat.add_mod_left]
    exact Nat.mod_eq_of_lt (addrTag_lt c A)
  have hbit : (miss_w c p.1 A).testBit v = false := by
    rw [miss_w, natOfBits_testBit, map_range_getD, if_pos hvW, htov, hvb,
      hfield]
    simp
  have hmwa1 : miss_w_and c p.1 A = false := by
    rw [miss_w_and, foldl_and_eq, Bool.true_and]
    cases hall : (List.range c.WAYS).all
        (fun i => (miss_w c p.1 A).testBit i) with
    | false => rfl
    | true =>
      exact absurd (List.all_eq_true.mp hall v (List.mem_range.mpr hvW))
        (by simp [hbit])
  have hb : busy p.1 = false := by
    rw [busy, hst1]
    simp
  simp [cpuReady, cpuReadyComb, hb, hvq1, hmwa1]

/-- Witness for `tag_mutation` on the concrete hit fixture: a served hit
writes only the LRU history word. -/
theorem tag_mutation_witness :
    sampleHitState.state = IcState.CHECK ∧ sampleHitState.flush_we = false ∧
      missSig cfgW sampleHitState cpuRd false = false ∧
      ((icStep cfgW sampleHitState cpuRd false memIdle false).tagMem
          (setIndex cfgW cpuRd.addr) >>>
        (TAGMEM_WAY_WIDTH cfgW * cfgW.WAYS)) % 2 ^ TAG_LRU_WIDTH cfgW =
        update_lru cfgW sampleHitState cpuRd.addr % 2 ^ TAG_LRU_WIDTH cfgW :=
  ⟨rfl, rfl, by decide,
    (((tag_mutation cfgW sampleHitState cpuRd false memIdle).2.2 rfl rfl).1
      (by decide)).2⟩


/-- A concrete backing memory for the refill witness: word `a` holds `a`,
interface idle. -/
def memLinear : MemState :=
  { mem := fun a => a, ready := false, i_data_o := 0, fault := false }

/-- Claim C6: miss completeness.  From a CHECK cycle that detects a miss on
address `A` (all ways miss, refill and flush idle, memory idle), with the
read request held: `cpu.ready` stays low through cycle `4·(B/4)` and is
asserted at cycle `4·(B/4) + 1`; exactly `B/4 = 2^(BLOCK_WIDTH-2)` memory
read beats are accepted (`mem.valid ∧ mem.ready`), at cycles `2 + 4k` for
`k < B/4`; the `k`-th accepted beat carries address
`(A - A % 2^BLOCK_WIDTH) + 4k` — the missed address with the block offset
zeroed, advanced one 4-byte word per accepted beat; and afterwards the data
array of the way selected by the evict mask holds exactly the returned
words in address order, every other entry of that way untouched. -/
theorem miss_refill (c : ICacheCfg) (aw A : Nat) (s0 : CacheState)
    (m0 : MemState) (hBW : 2 ≤ c.BLOCK_WIDTH)
    (hWL : WAY_WIDTH c ≤ c.LIMIT_WIDTH) (hA : A < 2 ^ c.LIMIT_WIDTH)
    (hst : s0.state = IcState.CHECK) (hrv : s0.refill_valid = false)
    (hfl : s0.flush = false) (hfw : s0.flush_we = false)
    (hmwa : miss_w_and c s0 A = true) (hmr : m0.ready = false)
    (v : Nat) (hvW : v < c.WAYS)
    (hvsel : (lru_select c s0).testBit v = true) :
    (∀ t, t ≤ 4 * 2 ^ (c.BLOCK_WIDTH - 2) →
      cpuReady c (icacheTraj c aw A (s0, m0) t).1
        { addr := A, fcn := MemOp.M_RD, valid := true } = false) ∧
    cpuReady c
        (icacheTraj c aw A (s0, m0) (4 * 2 ^ (c.BLOCK_WIDTH - 2) + 1)).1
        { addr := A, fcn := MemOp.M_RD, valid := true } = true ∧
    (∀ t, t ≤ 4 * 2 ^ (c.BLOCK_WIDTH - 2) →
      (((icacheTraj c aw A (s0, m0) t).1.refill_valid &&
          (icacheTraj c aw A (s0, m0) t).2.ready) = true ↔
        ∃ k, k < 2 ^ (c.BLOCK_WIDTH - 2) ∧ t = 2 + 4 * k)) ∧
    (∀ k, k < 2 ^ (c.BLOCK_WIDTH - 2) →
      (icacheTraj c aw A (s0, m0) (2 + 4 * k)).1.refill_addr =
        (A - A % 2 ^ c.BLOCK_WIDTH) + 4 * k) ∧
    (∀ k, k < 2 ^ (c.BLOCK_WIDTH - 2) →
      (icacheTraj c aw A (s0, m0)
          (4 * 2 ^ (c.BLOCK_WIDTH - 2) + 1)).1.dataMem v
          ((alignedBase c A % 2 ^ WAY_WIDTH c) >>> 2 + k) =
        m0.mem (memWordAddr aw (alignedBase c A + 4 * k)) % 2 ^ 32) ∧
    (∀ w, (∀ k, k < 2 ^ (c.BLOCK_WIDTH - 2) →
        w ≠ (alignedBase c A % 2 ^ WAY_WIDTH c) >>> 2 + k) →
      (icacheTraj c aw A (s0, m0)
          (4 * 2 ^ (c.BLOCK_WIDTH - 2) + 1)).1.dataMem v w =
        s0.dataMem v w) := by
  have hfin := refill_final c aw A s0 m0 hBW hWL hst hrv hfl hfw hmwa hmr
  refine ⟨refill_ready_low c aw A s0 m0 hBW hWL hst hrv hfl hfw hmwa hmr, ?_,
    refill_handshakes c aw A s0 m0 hBW hWL hst hrv hfl hfw hmwa hmr,
    refill_beat_addr c aw A s0 m0 hBW hWL hA hst hrv hfl hfw hmwa hmr,
    ?_, ?_⟩
  · exact finalP_ready c aw A s0 m0 _ v hvW hvsel hst hmwa hfl hfin
  · intro k hk
    exact hfin.2.2.2.1 v k hvsel hk
  · intro w hw
    exact hfin.2.2.2.2 v w (Or.inr hw)

/-- Witness for `miss_refill`: on the two-way fixture (one-word blocks,
`B/4 = 1`), a miss on address 4 from the all-invalid state over the linear
memory asserts `cpu.ready` at cycle `4·1 + 1 = 5`. -/
theorem miss_refill_witness :
    cpuReady cfgW
      (icacheTraj cfgW 8 4 (sampleState, memLinear)
        (4 * 2 ^ (cfgW.BLOCK_WIDTH - 2) + 1)).1
      { addr := 4, fcn := MemOp.M_RD, valid := true } = true :=
  (miss_refill cfgW 8 4 sampleState memLinear (by decide) (by decide)
    (by decide) rfl rfl rfl rfl (by decide) rfl 1 (by decide) (by decide)).2.1

end Algol
